import Mathlib

/-
  Verification development for the clausefill document-filling application.

  The embedding models, from the TypeScript source:
  * the placeholder extractor (src/app/page.tsx, PLACEHOLDER_REGEX and
    extractPlaceholders),
  * the conversational fill state (src/app/page.tsx, handleSubmitAnswer,
    handleReset, generateQuestion),
  * the structured substitution engine (src/app/api/generate-doc/route.ts,
    the per-paragraph rewrite inside POST),
  * the batch question endpoint with its deterministic fallback
    (src/app/api/generate-questions-batch/route.ts), and
  * the in-memory rate limiter (src/app/lib/rate-limiter.ts).

  Text is modelled as `List Char`.  JavaScript string operations used by the
  source (trim, toLowerCase on ASCII, literal global replace, regex matching
  of the fixed placeholder pattern) are given executable Lean definitions.
-/

namespace Clausefill

/-- Text is a list of characters. -/
abbrev Str := List Char

/-- The left curly brace character (written numerically). -/
def lbr : Char := Char.ofNat 123

/-- The right curly brace character (written numerically). -/
def rbr : Char := Char.ofNat 125

/-- `p` occurs at the start of `s` (JS `startsWith`). -/
def pfx (p s : Str) : Prop := ∃ t, s = p ++ t

/-- `p` occurs somewhere inside `s` (what a global literal-regex `test` checks). -/
def occurs (p s : Str) : Prop := ∃ a b, s = a ++ p ++ b

/-- Boolean occurrence test, scanning every suffix. -/
def occB (p : Str) : Str → Bool
  | [] => List.isPrefixOf p []
  | c :: rest => List.isPrefixOf p (c :: rest) || occB p rest

def isPrefixOf_iff_pfx {p s : Str} : List.isPrefixOf p s = true ↔ pfx p s := by
  rw [List.isPrefixOf_iff_prefix]
  constructor
  · rintro ⟨t, ht⟩
    exact ⟨t, ht.symm⟩
  · rintro ⟨t, ht⟩
    exact ⟨t, ht.symm⟩

instance pfxDecidable (p s : Str) : Decidable (pfx p s) :=
  decidable_of_iff (List.isPrefixOf p s = true) isPrefixOf_iff_pfx

def occB_iff {p : Str} : ∀ {s : Str}, occB p s = true ↔ occurs p s := by
  intro s
  induction s with
  | nil =>
    simp only [occB, isPrefixOf_iff_pfx, pfx, occurs]
    constructor
    · rintro ⟨t, ht⟩
      exact ⟨[], t, by simpa using ht⟩
    · rintro ⟨a, b, hab⟩
      have ha : a = [] := by
        cases a with
        | nil => rfl
        | cons x xs => simp at hab
      subst ha
      exact ⟨b, by simpa using hab⟩
  | cons c rest ih =>
    simp only [occB, Bool.or_eq_true, isPrefixOf_iff_pfx, ih]
    constructor
    · rintro (⟨t, ht⟩ | ⟨a, b, hab⟩)
      · exact ⟨[], t, by simpa using ht⟩
      · exact ⟨c :: a, b, by simp [hab]⟩
    · rintro ⟨a, b, hab⟩
      cases a with
      | nil =>
        exact Or.inl ⟨b, by simpa using hab⟩
      | cons x xs =>
        simp only [List.cons_append, List.cons.injEq] at hab
        exact Or.inr ⟨xs, b, by simp [hab.2]⟩

instance occursDecidable (p s : Str) : Decidable (occurs p s) :=
  decidable_of_iff (occB p s = true) occB_iff

/-- Characters treated as whitespace by the model of JS `trim`. -/
def isWsChar (c : Char) : Bool := c = ' ' || c = '\t' || c = '\n' || c = '\r'

/-- Model of JS `String.prototype.trim` (ASCII whitespace). -/
def trim (s : Str) : Str := ((s.dropWhile isWsChar).reverse.dropWhile isWsChar).reverse

/-- ASCII lower-casing of one character, as JS `toLowerCase` acts on ASCII. -/
def lowerChar (c : Char) : Char := c.toLower

/-- Model of JS `String.prototype.toLowerCase` (ASCII). -/
def toLowerStr (s : Str) : Str := s.map lowerChar

/-- Fuel-driven worker for global literal replacement: leftmost,
non-overlapping, never rescanning replacement text — the semantics of
JS `s.replace(new RegExp(escapedLiteral, "g"), rep)` for replacement
strings without `$` patterns. -/
def raFuel (pat rep : Str) : Nat → Str → Str
  | _, [] => []
  | 0, s => s
  | f + 1, c :: rest =>
    if List.isPrefixOf pat (c :: rest) then
      rep ++ raFuel pat rep f (List.drop (pat.length - 1) rest)
    else
      c :: raFuel pat rep f rest

/-- Global literal replacement of `pat` by `rep` in `s`
(the per-placeholder rewrite primitive of generate-doc). -/
def replaceAll (s pat rep : Str) : Str :=
  if pat = [] then s else raFuel pat rep s.length s

/-! ### XML escaping (generate-doc route, lines 65-68)

The route escapes the rewritten paragraph text with three sequential global
replacements, ampersand first:
`.replace(/&/g, "&amp;").replace(/</g, "&lt;").replace(/>/g, "&gt;")`. -/

/-- The three sequential global escapes performed by generate-doc. -/
def xmlEscape (s : Str) : Str :=
  replaceAll (replaceAll (replaceAll s ['&'] ("&amp;".toList)) ['<'] ("&lt;".toList))
    ['>'] ("&gt;".toList)

/-- Character-level view of the sequential escapes (replacements are never
rescanned, so the net effect is a character map). -/
def escChar (c : Char) : Str :=
  if c = '&' then "&amp;".toList
  else if c = '<' then "&lt;".toList
  else if c = '>' then "&gt;".toList
  else [c]

/-! ### Structured markup tree and the generate-doc substitution engine

src/app/api/generate-doc/route.ts rewrites `word/document.xml` paragraph by
paragraph: it concatenates the text of every `<w:t>` of a paragraph, tests
the escaped-literal placeholder regex against it, and on a match replaces all
occurrences, XML-escapes the result, keeps the first run with its formatting
properties, gives it the single rewritten `<w:t>`, and drops the other runs.
Paragraphs whose text has no match (and paragraphs without text runs) are
returned byte-identical. -/

/-- A text run: opaque formatting context plus its character data. -/
structure Run where
  fmt : Nat
  text : Str
deriving DecidableEq

/-- A paragraph block: opaque paragraph properties plus its runs. -/
structure Para where
  props : Nat
  runs : List Run
deriving DecidableEq

/-- A structured document: an ordered sequence of paragraph blocks. -/
abbrev Doc := List Para

/-- The concatenated run text of a paragraph (`plainText` in generate-doc). -/
def paraText (p : Para) : Str := (p.runs.map Run.text).flatten

/-- One placeholder/value pass over one paragraph (the body of the
`modifiedXml.replace(/(<w:p ...)/g, ...)` callback in generate-doc). -/
def rewritePara (k v : Str) (p : Para) : Para :=
  match p.runs with
  | [] => p
  | r :: _ =>
    if occurs k (paraText p) then
      { props := p.props, runs := [⟨r.fmt, xmlEscape (replaceAll (paraText p) k v)⟩] }
    else p

/-- The substitution engine: every answer-map entry is applied, in map order,
to every paragraph (the `Object.entries(answers).forEach` loop). -/
def substitute (doc : Doc) (answers : List (Str × Str)) : Doc :=
  answers.foldl (fun d kv => d.map (rewritePara kv.1 kv.2)) doc

/-- Flattened plain-text view of a document: paragraph texts joined by a
blank line (modelling the text-extraction view the extractor consumes). -/
def flattenDoc : Doc → Str
  | [] => []
  | [p] => paraText p
  | p :: rest => paraText p ++ '\n' :: '\n' :: flattenDoc rest

/-! ### Placeholder extraction (src/app/page.tsx lines 11 and 78-81)

`PLACEHOLDER_REGEX = /\$?\[[^\]]*\]|\{[^}]+\}|_{3,}|\[TBD\]|\[INSERT\]|\[FILL IN\]/gi`
and `extractPlaceholders` = match globally, trim each match, de-duplicate
keeping first-seen order (`Array.from(new Set(matches.map(trim)))`).
The last three alternatives require a `]` and are subsumed by the first, and
no pattern letter is case-dependent, so the `i` flag has no effect. -/

/-- Characters of `s` strictly before the first `cl`, plus the rest after it;
`none` when `cl` does not occur (how `[^X]*X` consumes). -/
def splitAtClose (cl : Char) : Str → Option (Str × Str)
  | [] => none
  | c :: rest =>
    if c = cl then some ([], rest)
    else (splitAtClose cl rest).map (fun ab => (c :: ab.1, ab.2))

/-- Try to match one placeholder token at the head of `s`, alternatives in
the regex order (`$`-bracket and bracket, then brace, then underscores);
returns the token and the remaining text. -/
def tryTok (s : Str) : Option (Str × Str) :=
  match s with
  | [] => none
  | c :: rest =>
    if c = '$' then
      match rest with
      | [] => none
      | d :: rest2 =>
        if d = '[' then
          (splitAtClose ']' rest2).map (fun ab => ('$' :: '[' :: (ab.1 ++ [']']), ab.2))
        else none
    else if c = '[' then
      (splitAtClose ']' rest).map (fun ab => ('[' :: (ab.1 ++ [']']), ab.2))
    else if c = lbr then
      match splitAtClose rbr rest with
      | some ab => if ab.1 = [] then none else some (lbr :: (ab.1 ++ [rbr]), ab.2)
      | none => none
    else if c = '_' then
      if 3 ≤ (List.takeWhile (fun d => d = '_') (c :: rest)).length then
        some (List.takeWhile (fun d => d = '_') (c :: rest),
          List.dropWhile (fun d => d = '_') (c :: rest))
      else none
    else none

/-- Fuel-driven global scan: at each position try the alternation; on a match
continue after it, otherwise advance one character (JS `String.match` with a
global regex and no empty matches). -/
def scanAux : Nat → Str → List Str
  | 0, _ => []
  | _ + 1, [] => []
  | f + 1, c :: rest =>
    match tryTok (c :: rest) with
    | some (m, r) => m :: scanAux f r
    | none => scanAux f rest

/-- All matches of the placeholder pattern over `s`. -/
def scanMatches (s : Str) : List Str := scanAux s.length s

/-- De-duplication keeping first-seen order (JS `Array.from(new Set(...))`). -/
def dedupAux (seen : List Str) : List Str → List Str
  | [] => []
  | x :: rest => if x ∈ seen then dedupAux seen rest else x :: dedupAux (x :: seen) rest

/-- First-occurrence-preserving de-duplication. -/
def dedupFirst (l : List Str) : List Str := dedupAux [] l

/-- `extractPlaceholders` from src/app/page.tsx lines 78-81. -/
def extractPlaceholders (text : Str) : List Str :=
  dedupFirst ((scanMatches text).map trim)

/-! ### Conversational fill state (src/app/page.tsx)

The component state relevant to the session, and the transitions
`handleSubmitAnswer` (lines 378-432) and `handleReset` (lines 356-376).
Asynchronous question generation is abstracted by an oracle `q` giving the
question text for a placeholder; the timeout-completed net effect of one
submission is modelled as one state transition. -/

/-- Chat turn roles. -/
inductive Role
  | user
  | assistant
deriving DecidableEq

/-- The session-relevant React state of the page component. -/
structure ChatState where
  templateHtml : Str
  templateText : Str
  originalFileBuffer : Option (List Nat)
  placeholders : List Str
  answers : List (Str × Str)
  documentMeta : Option (Str × Str)
  lastUpdated : Str
  messages : List (Role × Str)
  currentPlaceholderIndex : Nat
  userInput : Str
  uploadError : Option Str
  isParsing : Bool
  isDownloading : Bool
  isTyping : Bool
  userApiKey : Str
  questionCache : List (Str × Str)
deriving DecidableEq

/-- A fresh session over an extracted placeholder list. -/
def initChat (ks : List Str) : ChatState where
  templateHtml := []
  templateText := []
  originalFileBuffer := none
  placeholders := ks
  answers := []
  documentMeta := none
  lastUpdated := []
  messages := []
  currentPlaceholderIndex := 0
  userInput := []
  uploadError := none
  isParsing := false
  isDownloading := false
  isTyping := false
  userApiKey := []
  questionCache := []

/-- Assoc-list lookup (JS object property read). -/
def lookupA (m : List (Str × Str)) (k : Str) : Option Str :=
  match m with
  | [] => none
  | kv :: rest => if kv.1 = k then some kv.2 else lookupA rest k

/-- JS object spread update `{...m, [k]: v}`: existing key keeps its
position and gets the new value, a fresh key is appended. -/
def insertAssoc (m : List (Str × Str)) (k v : Str) : List (Str × Str) :=
  if m.any (fun kv => kv.1 = k) then
    m.map (fun kv => if kv.1 = k then (k, v) else kv)
  else m ++ [(k, v)]

/-- Literal digits of a number (JS template interpolation of a count). -/
def natStr (n : Nat) : Str := (Nat.repr n).toList

/-- The skip keyword. -/
def skipStr : Str := "skip".toList

/-- The skip acknowledgement turn. -/
def skipMsg (k : Str) : Str :=
  "Skipped \"".toList ++ k ++ "\". Moving to the next one.".toList

/-- The completion summary turn: `Done! I've filled <filled> of <total> ...`. -/
def doneMsg (filled total : Nat) : Str :=
  "Done! I\x27ve filled ".toList ++ natStr filled ++ " of ".toList ++ natStr total ++
    " placeholders. You can now review the completed document and download it.".toList

/-- `handleSubmitAnswer` (src/app/page.tsx lines 378-432), with the
asynchronous question fetch for the next placeholder abstracted by `q`. -/
def handleSubmitAnswer (q : Str → Str) (st : ChatState) : ChatState :=
  if trim st.userInput = [] ∨ st.placeholders.length ≤ st.currentPlaceholderIndex then st
  else
    let t := trim st.userInput
    let k := st.placeholders.getD st.currentPlaceholderIndex []
    let isSkip := toLowerStr t = skipStr
    let answers' := if isSkip then st.answers else insertAssoc st.answers k t
    let msgs := st.messages ++ [(Role.user, t)] ++
      (if isSkip then [(Role.assistant, skipMsg k)] else [])
    let nextIndex := st.currentPlaceholderIndex + 1
    let msgs' :=
      if nextIndex < st.placeholders.length then
        msgs ++ [(Role.assistant, q (st.placeholders.getD nextIndex []))]
      else
        msgs ++ [(Role.assistant, doneMsg answers'.length st.placeholders.length)]
    { st with
      answers := answers'
      messages := msgs'
      currentPlaceholderIndex := nextIndex
      userInput := []
      isTyping := false }

/-- `handleReset` (src/app/page.tsx lines 356-376): clears the listed state
setters; it has no setter for the question cache or the API key. -/
def handleReset (st : ChatState) : ChatState :=
  { st with
    templateHtml := []
    templateText := []
    originalFileBuffer := none
    placeholders := []
    answers := []
    documentMeta := none
    lastUpdated := []
    messages := []
    currentPlaceholderIndex := 0
    userInput := []
    uploadError := none
    isParsing := false
    isDownloading := false }

/-- `generateQuestion` (src/app/page.tsx lines 157-207): a truthy cache entry
is returned without any fetch; otherwise the fetch/fallback path `fetch`
produces the question. -/
def generateQuestion (st : ChatState) (fetch : Str → Str) (p : Str) : Str :=
  match lookupA st.questionCache p with
  | some q => if q = [] then fetch p else q
  | none => fetch p

/-- Run the conversation: type each input and submit it. -/
def runChat (q : Str → Str) (st : ChatState) (inputs : List Str) : ChatState :=
  inputs.foldl (fun s inp => handleSubmitAnswer q { s with userInput := inp }) st

/-- The answer map produced by a completed run, as a function of the
placeholder list and the raw inputs. -/
def answersOf (ks inputs : List Str) : List (Str × Str) :=
  (ks.zip inputs).filterMap
    (fun kv => if toLowerStr (trim kv.2) = skipStr then none else some (kv.1, trim kv.2))

/-- The number of inputs of a run that are the (case-insensitive) skip keyword. -/
def countSkips : List Str → Nat
  | [] => 0
  | inp :: rest => (if toLowerStr (trim inp) = skipStr then 1 else 0) + countSkips rest

/-! ### Question source (src/app/api/generate-questions-batch/route.ts)

`analyzePlaceholder` classifies a placeholder by keyword tests in a fixed
order, `generateFallbackQuestions` derives one deterministic question per
placeholder, and `POST` selects between the rate-limit response, the
deterministic path and the enrichment path. The OpenAI call with its JSON
parsing is abstracted as an optional list of returned questions: `none`
covers every failure (exception, empty model output, malformed shape, no
array found, zero questions), mirroring the `catch (aiError)` fallback. -/

/-- Placeholder categories. -/
inductive PType
  | amount | company | person | date | address | email | phone | other
deriving DecidableEq

/-- Does any keyword occur inside `s`? (the `/kw1|kw2|.../i.test(lower)` calls). -/
def hasAnyKw (s : Str) (kws : List Str) : Bool :=
  kws.any (fun kw => occB kw s)

/-- `analyzePlaceholder` (batch route lines 28-67). -/
def analyzePlaceholder (p : Str) : PType :=
  let lower := toLowerStr p
  if p.headD ' ' = '$' ∨ hasAnyKw lower
      ["amount".toList, "price".toList, "cost".toList, "fee".toList,
       "payment".toList, "salary".toList, "compensation".toList] then .amount
  else if hasAnyKw lower
      ["company".toList, "corporation".toList, "corp".toList, "llc".toList,
       "inc".toList, "organization".toList, "employer".toList] then .company
  else if hasAnyKw lower
      ["name".toList, "employee".toList, "investor".toList, "founder".toList,
       "officer".toList, "director".toList, "signatory".toList, "recipient".toList] then .person
  else if hasAnyKw lower
      ["date".toList, "day".toList, "month".toList, "year".toList,
       "effective".toList, "expiration".toList, "deadline".toList] then .date
  else if hasAnyKw lower
      ["address".toList, "street".toList, "city".toList, "state".toList,
       "zip".toList, "location".toList] then .address
  else if hasAnyKw lower ["email".toList, "e-mail".toList] then .email
  else if hasAnyKw lower
      ["phone".toList, "telephone".toList, "mobile".toList, "cell".toList] then .phone
  else .other

/-- Drop the first run of three or more underscores (`.replace(/_{3,}/, "")`,
no global flag: first match only). -/
def removeFirstUnderscoreRun : Str → Str
  | [] => []
  | c :: rest =>
    if c = '_' then
      if 3 ≤ (List.takeWhile (fun d => d = '_') (c :: rest)).length then
        List.dropWhile (fun d => d = '_') (c :: rest)
      else c :: removeFirstUnderscoreRun rest
    else c :: removeFirstUnderscoreRun rest

/-- The delimiter stripping of the batch route (lines 75-81). -/
def cleanPlaceholder (p : Str) : Str :=
  let s1 := if List.isPrefixOf ['$', '['] p then p.drop 2
    else if List.isPrefixOf ['['] p then p.drop 1 else p
  let s2 := if s1.getLast? = some ']' then s1.dropLast else s1
  let s3 := if List.isPrefixOf [lbr] s2 then s2.drop 1 else s2
  let s4 := if s3.getLast? = some rbr then s3.dropLast else s3
  let s5 := trim (removeFirstUnderscoreRun s4)
  if s5 = [] then "this value".toList else s5

/-- A classified placeholder with its question. -/
structure PQ where
  placeholder : Str
  type : PType
  question : Str
deriving DecidableEq

/-- `generateFallbackQuestions` (batch route lines 70-111). -/
def generateFallbackQuestions (placeholders : List Str) : List PQ :=
  placeholders.map (fun p =>
    let type := analyzePlaceholder p
    let cp := cleanPlaceholder p
    let question :=
      match type with
      | .amount => "What is the dollar amount for ".toList ++ cp ++ "?".toList
      | .company => "What is the company name for ".toList ++ cp ++ "?".toList
      | .person => "What is the person\x27s name for ".toList ++ cp ++ "?".toList
      | .date => "What is the date for ".toList ++ cp ++ "?".toList
      | .address => "What is the address for ".toList ++ cp ++ "?".toList
      | .email => "What is the email address for ".toList ++ cp ++ "?".toList
      | .phone => "What is the phone number for ".toList ++ cp ++ "?".toList
      | .other => "What is the ".toList ++ cp ++ "?".toList
    ⟨p, type, question⟩)

/-- Origin tag of the questions in a batch response. -/
inductive QSource
  | deterministic | deterministicFallback | ai | rateLimit | badRequest
deriving DecidableEq

/-- Outcome of the batch POST handler (lines 113-275): HTTP status, the
question list delivered (the 429 body carries `fallbackQuestions`), and
which path produced it. -/
structure BatchResp where
  status : Nat
  questions : List PQ
  source : QSource
deriving DecidableEq

/-- The POST control flow of generate-questions-batch. `userKey`/`defKey`
tell whether a user-supplied or server API key is present, `limited` is the
rate-limit verdict for the caller, `enrich` the abstracted OpenAI outcome. -/
def postBatch (placeholders : List Str) (userKey defKey limited : Bool)
    (enrich : Option (List PQ)) : BatchResp :=
  if placeholders = [] then ⟨400, [], .badRequest⟩
  else if ¬userKey ∧ defKey ∧ limited then
    ⟨429, generateFallbackQuestions placeholders, .rateLimit⟩
  else if ¬userKey ∧ ¬defKey then
    ⟨200, generateFallbackQuestions placeholders, .deterministic⟩
  else
    match enrich with
    | some qs =>
      if qs = [] then ⟨200, generateFallbackQuestions placeholders, .deterministicFallback⟩
      else ⟨200, qs, .ai⟩
    | none => ⟨200, generateFallbackQuestions placeholders, .deterministicFallback⟩

/-! ### Rate limiter (src/app/lib/rate-limiter.ts) -/

/-- One hour in milliseconds. -/
def RATE_LIMIT_WINDOW_MS : Nat := 60 * 60 * 1000

/-- Maximum requests per window per identifier. -/
def MAX_REQUESTS_PER_WINDOW : Nat := 50

/-- The verdict returned by `checkRateLimit`. -/
structure RLRes where
  allowed : Bool
  remaining : Nat
  resetTime : Nat
deriving DecidableEq

/-- The in-memory store: identifier to (count, resetTime). -/
abbrev RLStore := List (Str × Nat × Nat)

/-- Store lookup. -/
def rlLookup (store : RLStore) (id : Str) : Option (Nat × Nat) :=
  match store with
  | [] => none
  | e :: rest => if e.1 = id then some e.2 else rlLookup rest id

/-- `Map.set`: overwrite in place or append. -/
def rlSet (store : RLStore) (id : Str) (v : Nat × Nat) : RLStore :=
  if store.any (fun e => e.1 = id) then
    store.map (fun e => if e.1 = id then (id, v) else e)
  else store ++ [(id, v)]

/-- `checkRateLimit` (rate-limiter.ts lines 26-66) at time `now`. -/
def checkRateLimit (now : Nat) (id : Str) (store : RLStore) : RLRes × RLStore :=
  match rlLookup store id with
  | none =>
    let resetTime := now + RATE_LIMIT_WINDOW_MS
    (⟨true, MAX_REQUESTS_PER_WINDOW - 1, resetTime⟩, rlSet store id (1, resetTime))
  | some (count, resetTime) =>
    if resetTime < now then
      let resetTime' := now + RATE_LIMIT_WINDOW_MS
      (⟨true, MAX_REQUESTS_PER_WINDOW - 1, resetTime'⟩, rlSet store id (1, resetTime'))
    else if MAX_REQUESTS_PER_WINDOW ≤ count then
      (⟨false, 0, resetTime⟩, store)
    else
      (⟨true, MAX_REQUESTS_PER_WINDOW - (count + 1), resetTime⟩,
        rlSet store id (count + 1, resetTime))

/-- Run a sequence of calls for one identifier, collecting the verdicts. -/
def runRL (id : Str) : List Nat → RLStore → List Bool
  | [], _ => []
  | t :: ts, store =>
    let r := checkRateLimit t id store
    r.1.allowed :: runRL id ts r.2

/-! ### Segment decomposition used to reason about substitution

For the amended round-trip statement a paragraph text is viewed as an
alternation of literal stretches free of delimiter characters and exact
placeholder tokens.  `delims` are the characters that can open or close a
token, plus the XML-reserved characters. -/

/-- Characters reserved by the token syntax and the XML serialization. -/
def delims : List Char := ['$', '[', ']', lbr, rbr, '&', '<', '>']

/-- A string free of reserved characters. -/
def Clean (s : Str) : Prop := ∀ c ∈ s, c ∉ delims

/-- Well-formed placeholder tokens of bracket, dollar-bracket or brace form
with a reserved-character-free interior. -/
inductive TokForm : Str → Prop
  | br {m : Str} (h : Clean m) : TokForm ('[' :: (m ++ [']']))
  | dollar {m : Str} (h : Clean m) : TokForm ('$' :: '[' :: (m ++ [']']))
  | brace {m : Str} (h : Clean m) : TokForm (lbr :: (m ++ [rbr]))

/-- One piece of a paragraph text: a literal stretch or a placeholder token. -/
inductive Seg
  | lit (s : Str)
  | tok (k : Str)
deriving DecidableEq

/-- The text of a segment. -/
def segStr : Seg → Str
  | .lit s => s
  | .tok k => k

/-- The text of a segment list. -/
def segsText (l : List Seg) : Str := (l.map segStr).flatten

/-- Segment well-formedness relative to a key set. -/
def SegOK (ks : List Str) : Seg → Prop
  | .lit s => Clean s
  | .tok k => k ∈ ks

instance cleanDecidable (s : Str) : Decidable (Clean s) :=
  inferInstanceAs (Decidable (∀ c ∈ s, c ∉ delims))

instance segOKDecidable (ks : List Str) : (sg : Seg) → Decidable (SegOK ks sg)
  | .lit s => inferInstanceAs (Decidable (Clean s))
  | .tok k => inferInstanceAs (Decidable (k ∈ ks))

/-- Replace every token equal to `k` by the literal value `v`. -/
def replaceTokSeg (k v : Str) : Seg → Seg
  | .lit s => .lit s
  | .tok j => if j = k then .lit v else .tok j

/-- Apply an answer list to a segment decomposition, key by key. -/
def foldTokSegs (ans : List (Str × Str)) (segs : List Seg) : List Seg :=
  ans.foldl (fun sgs kv => sgs.map (replaceTokSeg kv.1 kv.2)) segs

/-- The keys of an answer list. -/
def keysOf (m : List (Str × Str)) : List Str := m.map Prod.fst

/-- Escaping as the specification words it: markup-reserved characters of
the serialization including quotes are escaped.  Modelled from the spec for
comparison with the code's `xmlEscape`, which does not handle quotes. -/
def xmlEscapeSpec (s : Str) : Str :=
  s.flatMap (fun c =>
    if c = '&' then "&amp;".toList
    else if c = '<' then "&lt;".toList
    else if c = '>' then "&gt;".toList
    else if c = '"' then "&quot;".toList
    else [c])

/-- Well-formed character data check for escaped output: no raw angle
bracket, and every ampersand begins one of the three produced entities. -/
def goodB : Str → Bool
  | [] => true
  | c :: rest =>
    if c = '<' then false
    else if c = '>' then false
    else if c = '&' then
      (List.isPrefixOf "amp;".toList rest || List.isPrefixOf "lt;".toList rest ||
        List.isPrefixOf "gt;".toList rest) && goodB rest
    else goodB rest

/-! ## Lemmas and theorems -/

theorem getLastMemOf {l : Str} {a : Char} (h : l.getLast? = some a) : a ∈ l := by
  have hx : a ∈ l.getLast? := by rw [h]; rfl
  obtain ⟨hne, heq⟩ := List.mem_getLast?_eq_getLast hx
  rw [heq]
  exact List.getLast_mem hne

theorem dropWhile_head_false {p : Char → Bool} :
    ∀ {l : Str} {c : Char}, (l.dropWhile p).head? = some c → p c = false := by
  intro l
  induction l with
  | nil => intro c h; simp at h
  | cons a rest ih =>
    intro c h
    rw [List.dropWhile_cons] at h
    by_cases hp : p a
    · rw [if_pos hp] at h
      exact ih h
    · rw [if_neg hp] at h
      simp only [List.head?_cons, Option.some.injEq] at h
      subst h
      exact Bool.eq_false_iff.mpr hp

theorem getLast?_dropWhile {p : Char → Bool} :
    ∀ {l : Str}, l.dropWhile p ≠ [] → (l.dropWhile p).getLast? = l.getLast? := by
  intro l
  induction l with
  | nil => intro h; simp at h
  | cons a rest ih =>
    intro h
    rw [List.dropWhile_cons] at h ⊢
    by_cases hp : p a
    · rw [if_pos hp] at h ⊢
      rw [ih h]
      have hrest : rest ≠ [] := by
        intro hr
        exact h (by simp [hr])
      obtain ⟨y, ys, rfl⟩ := List.exists_cons_of_ne_nil hrest
      exact (List.getLast?_cons_cons).symm
    · rw [if_neg hp]

theorem trim_eq_self {s : Str} (h1 : ∀ c, s.head? = some c → isWsChar c = false)
    (h2 : ∀ c, s.getLast? = some c → isWsChar c = false) : trim s = s := by
  cases s with
  | nil => rfl
  | cons a rest =>
    unfold trim
    have hd : (a :: rest).dropWhile isWsChar = a :: rest := by
      rw [List.dropWhile_cons, if_neg (by simp [h1 a rfl])]
    rw [hd]
    have hrevne : (a :: rest).reverse ≠ [] := by simp
    obtain ⟨d, rr, hrev⟩ := List.exists_cons_of_ne_nil hrevne
    have hdlast : (a :: rest).getLast? = some d := by
      rw [← List.head?_reverse, hrev]
      rfl
    rw [hrev, List.dropWhile_cons, if_neg (by simp [h2 d hdlast])]
    rw [← hrev, List.reverse_reverse]

theorem trim_getLast? {s : Str} {c : Char} (h : (trim s).getLast? = some c) :
    isWsChar c = false := by
  unfold trim at h
  rw [List.getLast?_reverse] at h
  exact dropWhile_head_false h

theorem trim_head? {s : Str} {c : Char} (h : (trim s).head? = some c) :
    isWsChar c = false := by
  unfold trim at h
  rw [List.head?_reverse] at h
  have hne : ((s.dropWhile isWsChar).reverse.dropWhile isWsChar) ≠ [] := by
    intro hnil
    rw [hnil] at h
    simp at h
  rw [getLast?_dropWhile hne, List.getLast?_reverse] at h
  exact dropWhile_head_false h

theorem trim_idem (s : Str) : trim (trim s) = trim s :=
  trim_eq_self (fun _ h => trim_head? h) (fun _ h => trim_getLast? h)

/-! ### Extraction lemmas -/

theorem splitAtClose_spec {cl : Char} :
    ∀ {s inner rest : Str}, splitAtClose cl s = some (inner, rest) →
      s = inner ++ cl :: rest ∧ cl ∉ inner := by
  intro s
  induction s with
  | nil => intro inner rest h; simp [splitAtClose] at h
  | cons c s' ih =>
    intro inner rest h
    rw [splitAtClose] at h
    by_cases hc : c = cl
    · rw [if_pos hc] at h
      simp only [Option.some.injEq, Prod.mk.injEq] at h
      obtain ⟨h1, h2⟩ := h
      subst h1 h2 hc
      exact ⟨rfl, by simp⟩
    · rw [if_neg hc] at h
      cases hs : splitAtClose cl s' with
      | none => rw [hs] at h; simp at h
      | some ab =>
        rw [hs] at h
        simp only [Option.map_some', Option.some.injEq, Prod.mk.injEq] at h
        obtain ⟨h1, h2⟩ := h
        obtain ⟨hspec, hmem⟩ := ih hs
        subst h1 h2
        constructor
        · simp [hspec]
        · simp only [List.mem_cons, not_or]
          exact ⟨fun he => hc he.symm, hmem⟩

theorem occurs_of_parts {p a b s : Str} (h : s = a ++ p ++ b) : occurs p s := ⟨a, b, h⟩

theorem occurs_head_mem {p s : Str} {c : Char} {p' : Str} (hp : p = c :: p')
    (h : occurs p s) : c ∈ s := by
  obtain ⟨a, b, hab⟩ := h
  subst hab hp
  simp

theorem raFuel_fuel {pat rep : Str} :
    ∀ (f₁ : Nat) (s : Str) (f₂ : Nat), s.length ≤ f₁ → s.length ≤ f₂ →
      raFuel pat rep f₁ s = raFuel pat rep f₂ s := by
  intro f₁
  induction f₁ with
  | zero =>
    intro s f₂ h₁ _
    have hs : s = [] := List.eq_nil_of_length_eq_zero (Nat.le_zero.mp h₁)
    subst hs
    cases f₂ <;> rfl
  | succ f ih =>
    intro s f₂ h₁ h₂
    cases s with
    | nil => cases f₂ <;> rfl
    | cons c rest =>
      cases f₂ with
      | zero => simp at h₂
      | succ g =>
        simp only [raFuel]
        have hr : rest.length ≤ f := by simp at h₁; omega
        have hg : rest.length ≤ g := by simp at h₂; omega
        by_cases hp : List.isPrefixOf pat (c :: rest)
        · rw [if_pos hp, if_pos hp]
          have hd : (List.drop (pat.length - 1) rest).length ≤ rest.length := by
            simp
          rw [ih _ g (le_trans hd hr) (le_trans hd hg)]
        · rw [if_neg hp, if_neg hp]
          rw [ih _ g hr hg]

theorem replaceAll_nil {pat rep : Str} : replaceAll [] pat rep = [] := by
  by_cases h : pat = [] <;> simp [replaceAll, h, raFuel]

theorem replaceAll_match {pat rep t : Str} (hpat : pat ≠ []) :
    replaceAll (pat ++ t) pat rep = rep ++ replaceAll t pat rep := by
  obtain ⟨p, pr, rfl⟩ : ∃ p pr, pat = p :: pr := by
    cases pat with
    | nil => exact absurd rfl hpat
    | cons p pr => exact ⟨p, pr, rfl⟩
  have hpfx : List.isPrefixOf (p :: pr) (p :: (pr ++ t)) = true := by
    rw [isPrefixOf_iff_pfx]
    exact ⟨t, by simp⟩
  have hdrop : List.drop ((p :: pr).length - 1) (pr ++ t) = t := by
    simp
  have step : raFuel (p :: pr) rep ((pr ++ t).length + 1) (p :: (pr ++ t)) =
      rep ++ raFuel (p :: pr) rep ((pr ++ t).length) t := by
    rw [raFuel, if_pos hpfx, hdrop]
  simp only [replaceAll, if_neg hpat]
  have hlen : ((p :: pr) ++ t).length = (pr ++ t).length + 1 := by simp
  calc raFuel (p :: pr) rep ((p :: pr) ++ t).length ((p :: pr) ++ t)
      = raFuel (p :: pr) rep ((pr ++ t).length + 1) (p :: (pr ++ t)) := by
        rw [hlen, List.cons_append]
    _ = rep ++ raFuel (p :: pr) rep ((pr ++ t).length) t := step
    _ = rep ++ raFuel (p :: pr) rep t.length t := by
        congr 1
        exact raFuel_fuel _ _ _ (by simp) le_rfl

theorem replaceAll_noMatch {pat rep : Str} {c : Char} {rest : Str} (hpat : pat ≠ [])
    (h : ¬ pfx pat (c :: rest)) :
    replaceAll (c :: rest) pat rep = c :: replaceAll rest pat rep := by
  have hb : ¬ List.isPrefixOf pat (c :: rest) := by
    intro hcon
    exact h (isPrefixOf_iff_pfx.mp hcon)
  simp only [replaceAll, if_neg hpat]
  have : (c :: rest).length = rest.length + 1 := by simp
  rw [this, raFuel, if_neg hb]

theorem replaceAll_append_left {pat rep t : Str} (hpat : pat ≠ []) :
    ∀ L : Str, (∀ x y, L = x ++ y → y ≠ [] → ¬ pfx pat (y ++ t)) →
      replaceAll (L ++ t) pat rep = L ++ replaceAll t pat rep := by
  intro L
  induction L with
  | nil => simp
  | cons c L' ih =>
    intro hL
    have hnot : ¬ pfx pat (c :: (L' ++ t)) := by
      have := hL [] (c :: L') rfl (by simp)
      simpa using this
    have ihh := ih (fun x y hxy hy => hL (c :: x) y (by simp [hxy]) hy)
    simp only [List.cons_append]
    rw [replaceAll_noMatch hpat hnot, ihh]

theorem replaceAll_single {c : Char} {rep : Str} :
    ∀ s : Str, replaceAll s [c] rep = s.flatMap (fun d => if d = c then rep else [d]) := by
  intro s
  induction s with
  | nil => simp [replaceAll_nil]
  | cons d rest ih =>
    by_cases hd : d = c
    · subst hd
      have : (d :: rest) = [d] ++ rest := rfl
      rw [this, replaceAll_match (by simp), ih]
      simp
    · have hnot : ¬ pfx [c] (d :: rest) := by
        rintro ⟨t, ht⟩
        simp only [List.cons_append, List.nil_append, List.cons.injEq] at ht
        exact hd ht.1
      rw [replaceAll_noMatch (by simp) hnot, ih]
      simp [hd]

theorem xmlEscape_eq_flatMap (s : Str) : xmlEscape s = s.flatMap escChar := by
  unfold xmlEscape
  rw [replaceAll_single, replaceAll_single, replaceAll_single]
  rw [List.flatMap_assoc, List.flatMap_assoc]
  apply List.flatMap_congr
  intro c _
  by_cases h1 : c = '&'
  · subst h1; rfl
  · by_cases h2 : c = '<'
    · subst h2; rfl
    · by_cases h3 : c = '>'
      · subst h3; rfl
      · simp [escChar, h1, h2, h3]

theorem xmlEscape_id {s : Str} (h : ∀ c ∈ s, c ≠ '&' ∧ c ≠ '<' ∧ c ≠ '>') :
    xmlEscape s = s := by
  rw [xmlEscape_eq_flatMap]
  induction s with
  | nil => rfl
  | cons c rest ih =>
    have hc := h c (by simp)
    have hrest : ∀ d ∈ rest, d ≠ '&' ∧ d ≠ '<' ∧ d ≠ '>' := fun d hd => h d (by simp [hd])
    simp only [List.flatMap_cons]
    rw [ih hrest]
    simp [escChar, hc.1, hc.2.1, hc.2.2]

theorem substitute_eq_map (answers : List (Str × Str)) :
    ∀ doc : Doc, substitute doc answers =
      doc.map (fun p => answers.foldl (fun q kv => rewritePara kv.1 kv.2 q) p) := by
  induction answers with
  | nil =>
    intro doc
    simp [substitute]
  | cons kv rest ih =>
    intro doc
    show substitute (doc.map (rewritePara kv.1 kv.2)) rest = _
    rw [ih (doc.map (rewritePara kv.1 kv.2)), List.map_map]
    rfl

theorem getLast?_cons_ne {c : Char} {t : Str} (h : t ≠ []) :
    (c :: t).getLast? = t.getLast? := by
  obtain ⟨y, ys, rfl⟩ := List.exists_cons_of_ne_nil h
  exact List.getLast?_cons_cons

/-- Every token produced by the alternation is nonempty, starts with a
non-whitespace delimiter and ends with a non-whitespace delimiter. -/
theorem tryTok_ends {s m r : Str} (h : tryTok s = some (m, r)) :
    m ≠ [] ∧ (∀ c, m.head? = some c → isWsChar c = false) ∧
      (∀ c, m.getLast? = some c → isWsChar c = false) := by
  cases s with
  | nil => simp [tryTok] at h
  | cons c rest =>
    have h' : (if c = '$' then
        (match rest with
          | [] => none
          | d :: rest2 =>
            if d = '[' then
              (splitAtClose ']' rest2).map (fun ab => ('$' :: '[' :: (ab.1 ++ [']']), ab.2))
            else none)
      else if c = '[' then
        (splitAtClose ']' rest).map (fun ab => ('[' :: (ab.1 ++ [']']), ab.2))
      else if c = lbr then
        (match splitAtClose rbr rest with
          | some ab => if ab.1 = [] then none else some (lbr :: (ab.1 ++ [rbr]), ab.2)
          | none => none)
      else if c = '_' then
        (if 3 ≤ (List.takeWhile (fun d => d = '_') (c :: rest)).length then
          some (List.takeWhile (fun d => d = '_') (c :: rest),
            List.dropWhile (fun d => d = '_') (c :: rest))
        else none)
      else none) = some (m, r) := h
    clear h
    rename' h' => h
    by_cases h1 : c = '$'
    · rw [if_pos h1] at h
      cases rest with
      | nil => simp at h
      | cons d rest2 =>
        have hinner : (if d = '[' then
            (splitAtClose ']' rest2).map (fun ab => ('$' :: '[' :: (ab.1 ++ [']']), ab.2))
          else none) = some (m, r) := h
        clear h
        rename' hinner => h
        by_cases h2 : d = '['
        · rw [if_pos h2] at h
          rcases h3 : splitAtClose ']' rest2 with _ | ab
          · rw [h3] at h; simp at h
          · rw [h3] at h
            simp only [Option.map_some', Option.some.injEq, Prod.mk.injEq] at h
            obtain ⟨hm, _⟩ := h
            subst hm
            refine ⟨by simp, ?_, ?_⟩
            · intro e he
              simp only [List.head?_cons, Option.some.injEq] at he
              subst he; rfl
            · intro e he
              rw [getLast?_cons_ne (by simp), getLast?_cons_ne (by simp),
                List.getLast?_concat] at he
              simp only [Option.some.injEq] at he
              subst he; rfl
        · rw [if_neg h2] at h; simp at h
    · rw [if_neg h1] at h
      by_cases h2 : c = '['
      · rw [if_pos h2] at h
        rcases h3 : splitAtClose ']' rest with _ | ab
        · rw [h3] at h; simp at h
        · rw [h3] at h
          simp only [Option.map_some', Option.some.injEq, Prod.mk.injEq] at h
          obtain ⟨hm, _⟩ := h
          subst hm
          refine ⟨by simp, ?_, ?_⟩
          · intro e he
            simp only [List.head?_cons, Option.some.injEq] at he
            subst he
            decide
          · intro e he
            rw [getLast?_cons_ne (by simp), List.getLast?_concat] at he
            simp only [Option.some.injEq] at he
            subst he; rfl
      · rw [if_neg h2] at h
        by_cases h3 : c = lbr
        · rw [if_pos h3] at h
          rcases h4 : splitAtClose rbr rest with _ | ab
          · rw [h4] at h; simp at h
          · rw [h4] at h
            have hinner2 : (if ab.1 = [] then none
                else some (lbr :: (ab.1 ++ [rbr]), ab.2)) = some (m, r) := h
            clear h
            rename' hinner2 => h
            by_cases h5 : ab.1 = []
            · rw [if_pos h5] at h; simp at h
            · rw [if_neg h5] at h
              simp only [Option.some.injEq, Prod.mk.injEq] at h
              obtain ⟨hm, _⟩ := h
              subst hm
              refine ⟨by simp, ?_, ?_⟩
              · intro e he
                simp only [List.head?_cons, Option.some.injEq] at he
                subst he
                decide
              · intro e he
                rw [getLast?_cons_ne (by simp), List.getLast?_concat] at he
                simp only [Option.some.injEq] at he
                subst he; rfl
        · rw [if_neg h3] at h
          by_cases h6 : c = '_'
          · rw [if_pos h6] at h
            by_cases h7 : 3 ≤ (List.takeWhile (fun d => d = '_') (c :: rest)).length
            · rw [if_pos h7] at h
              simp only [Option.some.injEq, Prod.mk.injEq] at h
              obtain ⟨hm, _⟩ := h
              have hall : ∀ e ∈ m, e = '_' := by
                intro e he
                rw [← hm] at he
                have := List.mem_takeWhile_imp he
                exact of_decide_eq_true this
              refine ⟨?_, ?_, ?_⟩
              · intro hnil
                rw [hm, hnil] at h7
                simp at h7
              · intro e he
                rw [hall e (by exact List.mem_of_mem_head? (by rw [he]; rfl))]
                rfl
              · intro e he
                rw [hall e (getLastMemOf he)]
                rfl
            · rw [if_neg h7] at h; simp at h
          · rw [if_neg h6] at h; simp at h

theorem scanAux_ends :
    ∀ (f : Nat) (s m : Str), m ∈ scanAux f s →
      m ≠ [] ∧ (∀ c, m.head? = some c → isWsChar c = false) ∧
        (∀ c, m.getLast? = some c → isWsChar c = false) := by
  intro f
  induction f with
  | zero => intro s m h; simp [scanAux] at h
  | succ f ih =>
    intro s m h
    cases s with
    | nil => simp [scanAux] at h
    | cons c rest =>
      rw [scanAux] at h
      rcases htk : tryTok (c :: rest) with _ | mr
      · rw [htk] at h
        exact ih rest m h
      · rw [htk] at h
        rcases List.mem_cons.mp h with rfl | hmem
        · exact tryTok_ends (show tryTok (c :: rest) = some (mr.1, mr.2) by rw [htk])
        · exact ih mr.2 m hmem

/-- Every match of the placeholder pattern is already trimmed and nonempty. -/
theorem scan_trim_self {T m : Str} (h : m ∈ scanMatches T) : trim m = m ∧ m ≠ [] := by
  obtain ⟨hne, h1, h2⟩ := scanAux_ends T.length T m h
  exact ⟨trim_eq_self h1 h2, hne⟩

theorem dedupAux_spec :
    ∀ (l seen : List Str), (dedupAux seen l).Nodup ∧ ∀ x ∈ dedupAux seen l, x ∉ seen := by
  intro l
  induction l with
  | nil => intro seen; simp [dedupAux]
  | cons x rest ih =>
    intro seen
    rw [dedupAux]
    by_cases hx : x ∈ seen
    · rw [if_pos hx]
      exact ih seen
    · rw [if_neg hx]
      obtain ⟨hnd, hout⟩ := ih (x :: seen)
      refine ⟨List.nodup_cons.mpr ⟨?_, hnd⟩, ?_⟩
      · intro hmem
        exact hout x hmem (by simp)
      · intro y hy
        rcases List.mem_cons.mp hy with rfl | hy'
        · exact hx
        · intro hsy
          exact hout y hy' (by simp [hsy])

theorem dedupFirst_nodup (l : List Str) : (dedupFirst l).Nodup :=
  (dedupAux_spec l []).1

/-- C4 helper: the extracted list has no duplicates. -/
theorem extract_nodup (T : Str) : (extractPlaceholders T).Nodup :=
  dedupFirst_nodup _

/-- C4.  Extraction order and uniqueness: `extractPlaceholders T` is exactly
the global matches of the placeholder pattern, each trimmed, empty results
discarded (vacuously, since no match trims to empty), de-duplicated keeping
the first occurrence of the linear scan; in particular it has no duplicates. -/
theorem C4_extract_order_unique (T : Str) :
    extractPlaceholders T =
      dedupFirst (((scanMatches T).map trim).filter (fun m => m ≠ [])) ∧
    (extractPlaceholders T).Nodup := by
  constructor
  · unfold extractPlaceholders
    congr 1
    rw [eq_comm, List.filter_eq_self]
    intro m hm
    obtain ⟨m', hm', rfl⟩ := List.mem_map.mp hm
    obtain ⟨ht, hne⟩ := scan_trim_self hm'
    rw [ht]
    simpa using hne
  · exact extract_nodup T


/-! ### Conversation sequencer lemmas -/

theorem insertAssoc_notMem {m : List (Str × Str)} {k v : Str} (h : k ∉ keysOf m) :
    insertAssoc m k v = m ++ [(k, v)] := by
  unfold insertAssoc
  rw [if_neg]
  intro hany
  rw [List.any_eq_true] at hany
  obtain ⟨kv, hkv, he⟩ := hany
  exact h (List.mem_map.mpr ⟨kv, hkv, of_decide_eq_true he⟩)

theorem mem_insertAssoc {m : List (Str × Str)} {k v : Str} {kv : Str × Str}
    (h : kv ∈ insertAssoc m k v) : kv ∈ m ∨ kv = (k, v) := by
  unfold insertAssoc at h
  by_cases hany : m.any (fun kv => kv.1 = k)
  · rw [if_pos hany] at h
    obtain ⟨kv', hkv', he⟩ := List.mem_map.mp h
    by_cases hk : kv'.1 = k
    · rw [if_pos hk] at he
      exact Or.inr he.symm
    · rw [if_neg hk] at he
      exact Or.inl (he ▸ hkv')
  · rw [if_neg hany] at h
    rcases List.mem_append.mp h with h1 | h2
    · exact Or.inl h1
    · exact Or.inr (List.mem_singleton.mp h2)

theorem getElem_notMem_take {ks : List Str} (hnd : ks.Nodup) {i : Nat} (hi : i < ks.length) :
    ks[i] ∉ ks.take i := by
  intro hmem
  obtain ⟨j, hj, he⟩ := List.mem_iff_getElem.mp hmem
  have hj' : j < i ∧ j < ks.length := by
    simp at hj
    omega
  rw [List.getElem_take] at he
  have := hnd.getElem_inj_iff.mp he
  omega

theorem answersOf_nil (ks : List Str) : answersOf ks [] = [] := by
  unfold answersOf
  rw [List.zip_nil_right]
  rfl

theorem answersOf_cons {k inp : Str} {ks' inputs' : List Str} :
    answersOf (k :: ks') (inp :: inputs') =
      if toLowerStr (trim inp) = skipStr then answersOf ks' inputs'
      else (k, trim inp) :: answersOf ks' inputs' := by
  unfold answersOf
  rw [List.zip_cons_cons, List.filterMap_cons]
  by_cases h : toLowerStr (trim inp) = skipStr <;> simp [h]

theorem answersOf_length :
    ∀ (ks inputs : List Str), ks.length = inputs.length →
      (answersOf ks inputs).length + countSkips inputs = inputs.length := by
  intro ks
  induction ks with
  | nil =>
    intro inputs h
    cases inputs with
    | nil => simp [answersOf_nil, countSkips]
    | cons a b => simp at h
  | cons k ks' ih =>
    intro inputs h
    cases inputs with
    | nil => simp at h
    | cons inp inputs' =>
      simp only [List.length_cons, Nat.add_right_cancel_iff] at h
      have ihh := ih inputs' h
      rw [answersOf_cons, countSkips]
      by_cases hs : toLowerStr (trim inp) = skipStr
      · rw [if_pos hs, if_pos hs]
        simp only [List.length_cons]
        omega
      · rw [if_neg hs, if_neg hs]
        simp only [List.length_cons]
        omega

theorem answersOf_no_skip :
    ∀ (ks inputs : List Str), (∀ inp ∈ inputs, toLowerStr (trim inp) ≠ skipStr) →
      answersOf ks inputs = (ks.zip inputs).map (fun kv => (kv.1, trim kv.2)) := by
  intro ks
  induction ks with
  | nil => intro inputs _; simp [answersOf]
  | cons k ks' ih =>
    intro inputs h
    cases inputs with
    | nil => simp [answersOf_nil]
    | cons inp inputs' =>
      rw [answersOf_cons, if_neg (h inp (by simp)), List.zip_cons_cons, List.map_cons,
        ih inputs' (fun x hx => h x (by simp [hx]))]

/-- Field equations of one non-guarded submission. -/
theorem submit_fields (q : Str → Str) (st : ChatState)
    (hne : trim st.userInput ≠ []) (hlt : st.currentPlaceholderIndex < st.placeholders.length) :
    (handleSubmitAnswer q st).answers =
      (if toLowerStr (trim st.userInput) = skipStr then st.answers
       else insertAssoc st.answers (st.placeholders.getD st.currentPlaceholderIndex [])
         (trim st.userInput)) ∧
    (handleSubmitAnswer q st).currentPlaceholderIndex = st.currentPlaceholderIndex + 1 ∧
    (handleSubmitAnswer q st).placeholders = st.placeholders ∧
    (handleSubmitAnswer q st).messages =
      (st.messages ++ [(Role.user, trim st.userInput)] ++
        (if toLowerStr (trim st.userInput) = skipStr
         then [(Role.assistant, skipMsg (st.placeholders.getD st.currentPlaceholderIndex []))]
         else []) ++
       (if st.currentPlaceholderIndex + 1 < st.placeholders.length then
          [(Role.assistant, q (st.placeholders.getD (st.currentPlaceholderIndex + 1) []))]
        else
          [(Role.assistant,
            doneMsg (if toLowerStr (trim st.userInput) = skipStr then st.answers
              else insertAssoc st.answers (st.placeholders.getD st.currentPlaceholderIndex [])
                (trim st.userInput)).length st.placeholders.length)])) := by
  unfold handleSubmitAnswer
  rw [if_neg (by push_neg; exact ⟨hne, hlt⟩)]
  refine ⟨rfl, rfl, rfl, ?_⟩
  by_cases hs : toLowerStr (trim st.userInput) = skipStr <;>
    by_cases hn : st.currentPlaceholderIndex + 1 < st.placeholders.length <;>
      simp [hs, hn]

/-- The sequencer run, by induction over the remaining inputs. -/
theorem runChat_aux (ks : List Str) (hnd : ks.Nodup) (q : Str → Str) :
    ∀ (inputs : List Str) (i : Nat) (st : ChatState),
      st.placeholders = ks →
      st.currentPlaceholderIndex = i →
      inputs.length + i = ks.length →
      (∀ inp ∈ inputs, trim inp ≠ []) →
      (∀ k ∈ keysOf st.answers, k ∈ ks.take i) →
      (runChat q st inputs).answers = st.answers ++ answersOf (ks.drop i) inputs ∧
      (runChat q st inputs).currentPlaceholderIndex = ks.length ∧
      (runChat q st inputs).placeholders = ks ∧
      (inputs ≠ [] →
        ∃ pre, (runChat q st inputs).messages =
          pre ++ [(Role.assistant,
            doneMsg (st.answers ++ answersOf (ks.drop i) inputs).length ks.length)]) := by
  intro inputs
  induction inputs with
  | nil =>
    intro i st hpl hidx hlen _ _
    have hi : i = ks.length := by simpa using hlen
    subst hi
    refine ⟨?_, ?_, ?_, ?_⟩
    · simp [runChat, answersOf_nil]
    · simp [runChat, hidx]
    · simp [runChat, hpl]
    · intro hc; exact absurd rfl hc
  | cons inp rest ih =>
    intro i st hpl hidx hlen hne hkeys
    have hilt : i < ks.length := by
      simp only [List.length_cons] at hlen
      omega
    have hrunstep : runChat q st (inp :: rest) =
        runChat q (handleSubmitAnswer q { st with userInput := inp }) rest := rfl
    have hne' : trim ({ st with userInput := inp } : ChatState).userInput ≠ [] := by
      simpa using hne inp (by simp)
    have hlt' : ({ st with userInput := inp } : ChatState).currentPlaceholderIndex <
        ({ st with userInput := inp } : ChatState).placeholders.length := by
      simpa [hpl, hidx] using hilt
    obtain ⟨hA, hI, hP, hM⟩ := submit_fields q { st with userInput := inp } hne' hlt'
    have hgetd : ({ st with userInput := inp } : ChatState).placeholders.getD
        ({ st with userInput := inp } : ChatState).currentPlaceholderIndex [] = ks[i] := by
      simp only [hpl, hidx]
      exact List.getD_eq_getElem ks [] hilt
    have hdrop : ks.drop i = ks[i] :: ks.drop (i + 1) := List.drop_eq_getElem_cons hilt
    have hknotin : ks[i] ∉ keysOf st.answers := by
      intro hmem
      exact getElem_notMem_take hnd hilt (hkeys _ hmem)
    have hanswers1 : (handleSubmitAnswer q { st with userInput := inp }).answers =
        if toLowerStr (trim inp) = skipStr then st.answers
        else st.answers ++ [(ks[i], trim inp)] := by
      rw [hA, hgetd]
      by_cases hs : toLowerStr (trim inp) = skipStr
      · simp [hs]
      · rw [if_neg (by simpa using hs), if_neg hs]
        simpa using insertAssoc_notMem hknotin
    have hidx1 : (handleSubmitAnswer q { st with userInput := inp }).currentPlaceholderIndex
        = i + 1 := by
      rw [hI]; simp [hidx]
    have hpl1 : (handleSubmitAnswer q { st with userInput := inp }).placeholders = ks := by
      rw [hP]; simp [hpl]
    have htake : ks.take (i + 1) = ks.take i ++ [ks[i]] := by
      rw [List.take_succ]
      simp [List.getElem?_eq_getElem hilt]
    have hkeys1 : ∀ k ∈ keysOf (handleSubmitAnswer q { st with userInput := inp }).answers,
        k ∈ ks.take (i + 1) := by
      intro k hk
      rw [hanswers1] at hk
      by_cases hs : toLowerStr (trim inp) = skipStr
      · rw [if_pos hs] at hk
        rw [htake]
        exact List.mem_append.mpr (Or.inl (hkeys k hk))
      · rw [if_neg hs] at hk
        unfold keysOf at hk
        rw [List.map_append] at hk
        rcases List.mem_append.mp hk with h1 | h2
        · rw [htake]
          exact List.mem_append.mpr (Or.inl (hkeys k h1))
        · simp only [List.map_cons, List.map_nil, List.mem_singleton] at h2
          rw [htake]
          exact List.mem_append.mpr (Or.inr (by simp [h2]))
    have hlen1 : rest.length + (i + 1) = ks.length := by
      simp only [List.length_cons] at hlen
      omega
    have hne1 : ∀ x ∈ rest, trim x ≠ [] := fun x hx => hne x (by simp [hx])
    obtain ⟨ihA, ihI, ihP, ihM⟩ :=
      ih (i + 1) (handleSubmitAnswer q { st with userInput := inp }) hpl1 hidx1 hlen1 hne1 hkeys1
    have hansEq : (handleSubmitAnswer q { st with userInput := inp }).answers ++
        answersOf (ks.drop (i + 1)) rest = st.answers ++ answersOf (ks.drop i) (inp :: rest) := by
      rw [hanswers1, hdrop, answersOf_cons]
      by_cases hs : toLowerStr (trim inp) = skipStr
      · rw [if_pos hs, if_pos hs]
      · rw [if_neg hs, if_neg hs]
        simp
    refine ⟨?_, ?_, ?_, ?_⟩
    · rw [hrunstep, ihA, hansEq]
    · rw [hrunstep, ihI]
    · rw [hrunstep, ihP]
    · intro _
      by_cases hrest : rest = []
      swap
      · obtain ⟨pre, hpre⟩ := ihM hrest
        refine ⟨pre, ?_⟩
        rw [hrunstep, hpre, hansEq]
      · have hlast : ¬ (i + 1 < ks.length) := by
          simp only [List.length_cons, hrest] at hlen
          simp only [List.length_nil] at hlen
          omega
        subst hrest
        rw [hrunstep]
        have hrun : runChat q (handleSubmitAnswer q { st with userInput := inp }) [] =
            handleSubmitAnswer q { st with userInput := inp } := rfl
        rw [hrun, hM]
        simp only [hgetd]
        have hcond : ¬ (({ st with userInput := inp } : ChatState).currentPlaceholderIndex + 1 <
            ({ st with userInput := inp } : ChatState).placeholders.length) := by
          simpa [hpl, hidx] using hlast
        rw [if_neg hcond]
        have hcount : (if toLowerStr (trim ({ st with userInput := inp } : ChatState).userInput)
              = skipStr then ({ st with userInput := inp } : ChatState).answers
            else insertAssoc ({ st with userInput := inp } : ChatState).answers ks[i]
              (trim ({ st with userInput := inp } : ChatState).userInput)).length =
            (st.answers ++ answersOf (ks.drop i) [inp]).length := by
          rw [hdrop, answersOf_cons, answersOf_nil]
          by_cases hs : toLowerStr (trim inp) = skipStr
          · rw [if_pos (show toLowerStr (trim ({ st with userInput := inp } :
                ChatState).userInput) = skipStr from hs), if_pos hs]
            simp
          · rw [if_neg (show ¬ toLowerStr (trim ({ st with userInput := inp } :
                ChatState).userInput) = skipStr from hs), if_neg hs]
            show (insertAssoc st.answers ks[i] (trim inp)).length = _
            rw [insertAssoc_notMem hknotin]
        have hlen' : ({ st with userInput := inp } : ChatState).placeholders.length =
            ks.length := by
          simp [hpl]
        rw [hcount, hlen']
        exact ⟨_, rfl⟩

/-- C3.  Skip semantics: submitting the case-insensitive literal "skip" never
adds a key to the answer map, and the completion summary appended on reaching
the final index reports a filled-count equal to N minus the number of skipped
placeholders (the answer map's size). -/
theorem C3_skip_semantics (ks inputs : List Str) (q : Str → Str)
    (hnd : ks.Nodup) (hlen : inputs.length = ks.length)
    (hne : ∀ inp ∈ inputs, trim inp ≠ []) (hks : ks ≠ []) :
    (∀ st : ChatState, toLowerStr (trim st.userInput) = skipStr →
      (handleSubmitAnswer q st).answers = st.answers) ∧
    (runChat q (initChat ks) inputs).answers.length = ks.length - countSkips inputs ∧
    ∃ pre, (runChat q (initChat ks) inputs).messages =
      pre ++ [(Role.assistant, doneMsg (ks.length - countSkips inputs) ks.length)] := by
  have hskippart : ∀ st : ChatState, toLowerStr (trim st.userInput) = skipStr →
      (handleSubmitAnswer q st).answers = st.answers := by
    intro st hskip
    unfold handleSubmitAnswer
    by_cases hg : trim st.userInput = [] ∨ st.placeholders.length ≤ st.currentPlaceholderIndex
    · rw [if_pos hg]
    · rw [if_neg hg]
      simp [hskip]
  obtain ⟨ihA, _, _, ihM⟩ := runChat_aux ks hnd q inputs 0 (initChat ks) rfl rfl
    (by simpa using hlen) hne (by simp [initChat, keysOf])
  have hansLen : (runChat q (initChat ks) inputs).answers.length =
      ks.length - countSkips inputs := by
    rw [ihA]
    have h0 : (initChat ks).answers = [] := rfl
    rw [h0, List.nil_append, List.drop_zero]
    have := answersOf_length ks inputs hlen.symm
    omega
  refine ⟨hskippart, hansLen, ?_⟩
  have hinputs : inputs ≠ [] := by
    intro hc
    rw [hc] at hlen
    exact hks (List.eq_nil_of_length_eq_zero hlen.symm)
  obtain ⟨pre, hpre⟩ := ihM hinputs
  refine ⟨pre, ?_⟩
  rw [hpre]
  have h0 : (initChat ks).answers = [] := rfl
  rw [h0, List.nil_append, List.drop_zero]
  have := answersOf_length ks inputs hlen.symm
  have hc : (answersOf ks inputs).length = ks.length - countSkips inputs := by omega
  rw [hc]

/-- Witness for C3 at a concrete three-placeholder run with one skip. -/
theorem C3_skip_semantics_witness :
    (runChat (fun _ => []) (initChat ["[A]".toList, "[B]".toList, "[C]".toList])
        ["Acme".toList, " Skip ".toList, "zzz".toList]).answers.length =
      (["[A]".toList, "[B]".toList, "[C]".toList] : List Str).length -
        countSkips ["Acme".toList, " Skip ".toList, "zzz".toList] ∧
    ∃ pre, (runChat (fun _ => []) (initChat ["[A]".toList, "[B]".toList, "[C]".toList])
        ["Acme".toList, " Skip ".toList, "zzz".toList]).messages =
      pre ++ [(Role.assistant,
        doneMsg ((["[A]".toList, "[B]".toList, "[C]".toList] : List Str).length -
          countSkips ["Acme".toList, " Skip ".toList, "zzz".toList])
          (["[A]".toList, "[B]".toList, "[C]".toList] : List Str).length)] :=
  ⟨(C3_skip_semantics _ _ _ (by decide) (by decide) (by decide) (by decide)).2.1,
   (C3_skip_semantics _ _ _ (by decide) (by decide) (by decide) (by decide)).2.2⟩

/-- C10.  Implicit guard of answer submission: empty-trimmed input or an
index at or past the end leaves the whole state untouched; consequently the
answer map only ever holds nonempty trimmed values. -/
theorem C10_submit_guard (q : Str → Str) (st : ChatState) :
    ((trim st.userInput = [] ∨ st.placeholders.length ≤ st.currentPlaceholderIndex) →
      handleSubmitAnswer q st = st) ∧
    ((∀ kv ∈ st.answers, kv.2 ≠ [] ∧ trim kv.2 = kv.2) →
      ∀ kv ∈ (handleSubmitAnswer q st).answers, kv.2 ≠ [] ∧ trim kv.2 = kv.2) := by
  have hguard : (trim st.userInput = [] ∨
      st.placeholders.length ≤ st.currentPlaceholderIndex) →
      handleSubmitAnswer q st = st := by
    intro h
    unfold handleSubmitAnswer
    rw [if_pos h]
  refine ⟨hguard, ?_⟩
  intro hm kv hkv
  by_cases hg : trim st.userInput = [] ∨ st.placeholders.length ≤ st.currentPlaceholderIndex
  · rw [hguard hg] at hkv
    exact hm kv hkv
  · push_neg at hg
    obtain ⟨hA, _, _, _⟩ := submit_fields q st hg.1 hg.2
    rw [hA] at hkv
    by_cases hs : toLowerStr (trim st.userInput) = skipStr
    · rw [if_pos hs] at hkv
      exact hm kv hkv
    · rw [if_neg hs] at hkv
      rcases mem_insertAssoc hkv with hold | hnew
      · exact hm kv hold
      · rw [hnew]
        exact ⟨hg.1, trim_idem st.userInput⟩

/-- Witness for C10: guarded no-op on empty input, and value invariant after
one real submission. -/
theorem C10_submit_guard_witness :
    handleSubmitAnswer (fun _ => []) (initChat ["[A]".toList]) = initChat ["[A]".toList] ∧
    (∀ kv ∈ (handleSubmitAnswer (fun _ => [])
        { initChat ["[A]".toList] with userInput := "  hi  ".toList }).answers,
      kv.2 ≠ [] ∧ trim kv.2 = kv.2) :=
  ⟨(C10_submit_guard (fun _ => []) (initChat ["[A]".toList])).1 (Or.inl (by decide)),
   (C10_submit_guard (fun _ => [])
     { initChat ["[A]".toList] with userInput := "  hi  ".toList }).2 (by decide)⟩

/-- C2.  The code stores the raw trimmed input without any normalization:
submitting "de" while awaiting a placeholder writes "de" to the answer map,
not the normalized "Delaware" that the specification and the project's own
documentation describe. -/
theorem C2_no_normalization :
    (handleSubmitAnswer (fun _ => [])
      { initChat ["[Company State]".toList] with userInput := "de".toList }).answers =
      [("[Company State]".toList, "de".toList)] ∧
    ("de".toList : Str) ≠ "Delaware".toList := by
  constructor
  · decide
  · decide

/-- C9.  Reset frame property: `handleReset` clears the session state but has
no setter for the question cache or the user API key, and `generateQuestion`
returns a truthy cached entry without fetching, before and after a reset. -/
theorem C9_reset_frame (st : ChatState) :
    (handleReset st).templateHtml = [] ∧
    (handleReset st).templateText = [] ∧
    (handleReset st).originalFileBuffer = none ∧
    (handleReset st).placeholders = [] ∧
    (handleReset st).answers = [] ∧
    (handleReset st).documentMeta = none ∧
    (handleReset st).lastUpdated = [] ∧
    (handleReset st).messages = [] ∧
    (handleReset st).currentPlaceholderIndex = 0 ∧
    (handleReset st).userInput = [] ∧
    (handleReset st).questionCache = st.questionCache ∧
    (handleReset st).userApiKey = st.userApiKey ∧
    (∀ (fetch : Str → Str) (p qv : Str),
      lookupA st.questionCache p = some qv → qv ≠ [] →
      generateQuestion st fetch p = qv ∧ generateQuestion (handleReset st) fetch p = qv) := by
  refine ⟨rfl, rfl, rfl, rfl, rfl, rfl, rfl, rfl, rfl, rfl, rfl, rfl, ?_⟩
  intro fetch p qv hl hne
  constructor
  · unfold generateQuestion
    rw [hl]
    simp [hne]
  · unfold generateQuestion
    have hc : (handleReset st).questionCache = st.questionCache := rfl
    rw [hc, hl]
    simp [hne]

/-- Witness for C9 at a state carrying one cached question and an API key. -/
theorem C9_reset_frame_witness :
    (handleReset { initChat [] with
        questionCache := [("[A]".toList, "Q1".toList)],
        userApiKey := "sk-key".toList }).questionCache =
      [("[A]".toList, "Q1".toList)] ∧
    (handleReset { initChat [] with
        questionCache := [("[A]".toList, "Q1".toList)],
        userApiKey := "sk-key".toList }).userApiKey = "sk-key".toList ∧
    generateQuestion { initChat [] with
        questionCache := [("[A]".toList, "Q1".toList)],
        userApiKey := "sk-key".toList } (fun _ => "fetched".toList) "[A]".toList =
      "Q1".toList ∧
    generateQuestion (handleReset { initChat [] with
        questionCache := [("[A]".toList, "Q1".toList)],
        userApiKey := "sk-key".toList }) (fun _ => "fetched".toList) "[A]".toList =
      "Q1".toList := by
  refine ⟨?_, ?_, ?_, ?_⟩
  · exact (C9_reset_frame _).2.2.2.2.2.2.2.2.2.2.1
  · exact (C9_reset_frame _).2.2.2.2.2.2.2.2.2.2.2.1
  · exact ((C9_reset_frame _).2.2.2.2.2.2.2.2.2.2.2.2 _ _ _ (by decide) (by decide)).1
  · exact ((C9_reset_frame _).2.2.2.2.2.2.2.2.2.2.2.2 _ _ _ (by decide) (by decide)).2

/-! ### Substitution frame lemmas -/

theorem rewritePara_id {k v : Str} {p : Para} (h : ¬ occurs k (paraText p)) :
    rewritePara k v p = p := by
  unfold rewritePara
  split
  · rfl
  · rw [if_neg h]

theorem foldRewrite_id {answers : List (Str × Str)} {p : Para}
    (h : ∀ kv ∈ answers, ¬ occurs kv.1 (paraText p)) :
    answers.foldl (fun q kv => rewritePara kv.1 kv.2 q) p = p := by
  induction answers with
  | nil => rfl
  | cons kv rest ih =>
    rw [List.foldl_cons, rewritePara_id (h kv (by simp))]
    exact ih (fun kv' h' => h kv' (by simp [h']))

/-- C5.  Paragraph isolation: a paragraph whose concatenated run text
contains no occurrence of any answer-map key is emitted byte-identical by
the substitution engine — all runs, their formatting and the paragraph
itself are unchanged. -/
theorem C5_paragraph_isolation (doc : Doc) (answers : List (Str × Str)) (i : Nat)
    (hi : i < doc.length)
    (h : ∀ kv ∈ answers, ¬ occurs kv.1 (paraText (doc.getD i ⟨0, []⟩))) :
    (substitute doc answers).getD i ⟨0, []⟩ = doc.getD i ⟨0, []⟩ := by
  rw [substitute_eq_map]
  have hlen : i < (doc.map
      (fun p => answers.foldl (fun q kv => rewritePara kv.1 kv.2 q) p)).length := by
    simpa using hi
  rw [List.getD_eq_getElem _ _ hlen, List.getElem_map, ← List.getD_eq_getElem doc ⟨0, []⟩ hi]
  exact foldRewrite_id h

/-- Witness for C5: the second paragraph, which contains no key, is
byte-identical after substitution in the first paragraph. -/
theorem C5_paragraph_isolation_witness :
    (substitute [⟨0, [⟨1, "fill [A] here".toList⟩]⟩, ⟨2, [⟨3, "unrelated ".toList⟩,
        ⟨4, "text".toList⟩]⟩] [("[A]".toList, "X".toList)]).getD 1 ⟨0, []⟩ =
      (⟨2, [⟨3, "unrelated ".toList⟩, ⟨4, "text".toList⟩]⟩ : Para) :=
  C5_paragraph_isolation _ _ 1 (by decide) (by decide)

/-! ### Question source lemmas -/

theorem generateFallbackQuestions_spec (ps : List Str) :
    (generateFallbackQuestions ps).length = ps.length ∧
    ∀ pq ∈ generateFallbackQuestions ps, pq.question ≠ [] := by
  constructor
  · simp [generateFallbackQuestions]
  · intro pq hpq
    obtain ⟨p, _, rfl⟩ := List.mem_map.mp hpq
    cases analyzePlaceholder p <;> simp

/-- C7.  Deterministic fallback guarantee: whenever enrichment returns zero
questions, a malformed result (modelled as `none`), or the request is
rate-limited on the default key, or no key is available, the batch endpoint
returns exactly the deterministic fallback list — one nonempty question per
input placeholder, never merged with partial enrichment output; for the
batch `["[Company Name]", "$[Amount]"]` these are exactly the company and
amount templates. -/
theorem C7_fallback_guarantee (ps : List Str) (userKey defKey limited : Bool)
    (enrich : Option (List PQ)) (hps : ps ≠ [])
    (hfail : enrich = none ∨ enrich = some [] ∨
      (userKey = false ∧ defKey = true ∧ limited = true) ∨
      (userKey = false ∧ defKey = false)) :
    (postBatch ps userKey defKey limited enrich).questions =
      generateFallbackQuestions ps ∧
    (postBatch ps userKey defKey limited enrich).questions.length = ps.length ∧
    (∀ pq ∈ (postBatch ps userKey defKey limited enrich).questions, pq.question ≠ []) ∧
    (generateFallbackQuestions ["[Company Name]".toList, "$[Amount]".toList]).map
        (fun pq => (pq.type, pq.question)) =
      [(PType.company, "What is the company name for Company Name?".toList),
       (PType.amount, "What is the dollar amount for Amount?".toList)] := by
  have hq : (postBatch ps userKey defKey limited enrich).questions =
      generateFallbackQuestions ps := by
    unfold postBatch
    rw [if_neg hps]
    by_cases h1 : ¬userKey ∧ defKey ∧ limited
    · rw [if_pos h1]
    · rw [if_neg h1]
      by_cases h2 : ¬userKey ∧ ¬defKey
      · rw [if_pos h2]
      · rw [if_neg h2]
        rcases hfail with he | he | hcase | hcase
        · rw [he]
        · rw [he]
          simp
        · exact absurd ⟨by simp [hcase.1], hcase.2.1, hcase.2.2⟩ h1
        · exact absurd ⟨by simp [hcase.1], by simp [hcase.2]⟩ h2
  obtain ⟨hl, hne⟩ := generateFallbackQuestions_spec ps
  refine ⟨hq, by rw [hq]; exact hl, by rw [hq]; exact hne, by decide⟩

/-- Witness for C7 at the concrete two-placeholder batch with failed
enrichment. -/
theorem C7_fallback_guarantee_witness :
    (postBatch ["[Company Name]".toList, "$[Amount]".toList] false true false
        none).questions =
      generateFallbackQuestions ["[Company Name]".toList, "$[Amount]".toList] ∧
    (postBatch ["[Company Name]".toList, "$[Amount]".toList] false true false
        none).questions.length = 2 :=
  ⟨(C7_fallback_guarantee _ false true false none (by decide) (Or.inl rfl)).1,
   (C7_fallback_guarantee _ false true false none (by decide) (Or.inl rfl)).2.1⟩

/-! ### Rate limiter lemmas -/

theorem rlLookup_append_fresh {id : Str} {v : Nat × Nat} :
    ∀ store : RLStore, (∀ x ∈ store, ¬ x.1 = id) →
      rlLookup (store ++ [(id, v)]) id = some v := by
  intro store
  induction store with
  | nil =>
    intro _
    simp [rlLookup]
  | cons e rest ih =>
    intro h
    rw [List.cons_append, rlLookup, if_neg (h e (by simp))]
    exact ih (fun x hx => h x (by simp [hx]))

theorem rlLookup_rlSet (id : Str) (v : Nat × Nat) :
    ∀ store : RLStore, rlLookup (rlSet store id v) id = some v := by
  intro store
  induction store with
  | nil =>
    unfold rlSet
    simp [rlLookup]
  | cons e rest ih =>
    unfold rlSet
    by_cases hany : (e :: rest).any (fun x => x.1 = id)
    · rw [if_pos hany]
      rw [List.map_cons]
      by_cases he : e.1 = id
      · rw [if_pos he]
        unfold rlLookup
        simp
      · rw [if_neg he]
        unfold rlLookup
        rw [if_neg he]
        have hrany : rest.any (fun x => x.1 = id) := by
          rcases List.any_eq_true.mp hany with ⟨x, hx, hd⟩
          rcases List.mem_cons.mp hx with rfl | hx'
          · exact absurd (of_decide_eq_true hd) he
          · exact List.any_eq_true.mpr ⟨x, hx', hd⟩
        have := ih
        rw [rlSet, if_pos hrany] at this
        exact this
    · rw [if_neg hany]
      apply rlLookup_append_fresh
      intro x hx hxid
      exact hany (List.any_eq_true.mpr ⟨x, hx, decide_eq_true hxid⟩)

theorem runRL_count_le (id : Str) (r : Nat) :
    ∀ (ts : List Nat) (c : Nat), (∀ t ∈ ts, t ≤ r) →
      (runRL id ts [(id, (c, r))]).count true ≤ MAX_REQUESTS_PER_WINDOW - c := by
  intro ts
  induction ts with
  | nil => intro c _; simp [runRL]
  | cons t ts' ih =>
    intro c hts
    rw [runRL]
    have hlk : rlLookup [(id, (c, r))] id = some (c, r) := by simp [rlLookup]
    have hnr : ¬ r < t := by
      have := hts t (by simp)
      omega
    unfold checkRateLimit
    rw [hlk]
    simp only
    rw [if_neg hnr]
    by_cases hc : MAX_REQUESTS_PER_WINDOW ≤ c
    · rw [if_pos hc]
      show List.count true (false :: runRL id ts' [(id, (c, r))]) ≤
        MAX_REQUESTS_PER_WINDOW - c
      rw [List.count_cons_of_ne (show (true : Bool) ≠ false by decide)]
      exact ih c (fun x hx => hts x (by simp [hx]))
    · rw [if_neg hc]
      have hset : rlSet [(id, (c, r))] id (c + 1, r) = [(id, (c + 1, r))] := by
        unfold rlSet
        rw [if_pos (by simp)]
        simp
      show List.count true
        (true :: runRL id ts' (rlSet [(id, (c, r))] id (c + 1, r))) ≤
        MAX_REQUESTS_PER_WINDOW - c
      rw [hset, List.count_cons_self]
      have := ih (c + 1) (fun x hx => hts x (by simp [hx]))
      simp only [MAX_REQUESTS_PER_WINDOW] at hc this ⊢
      omega

/-- C8.  Rate-limit quota: an identifier is allowed at most 50 times within
one window; with the quota consumed, a call at or before the reset time is
denied with zero remaining; a call strictly after the reset time opens a
fresh window and is allowed; and the rate-limited batch response is the
distinct 429 condition still carrying one deterministic fallback question
per placeholder. -/
theorem C8_rate_limit_quota (id : Str) (t0 : Nat) (rest : List Nat)
    (hrest : ∀ t ∈ rest, t ≤ t0 + RATE_LIMIT_WINDOW_MS) :
    (runRL id (t0 :: rest) []).count true ≤ MAX_REQUESTS_PER_WINDOW ∧
    (∀ now (store : RLStore) c r, rlLookup store id = some (c, r) →
      MAX_REQUESTS_PER_WINDOW ≤ c → now ≤ r →
      (checkRateLimit now id store).1.allowed = false ∧
      (checkRateLimit now id store).1.remaining = 0) ∧
    (∀ now (store : RLStore) c r, rlLookup store id = some (c, r) → r < now →
      (checkRateLimit now id store).1.allowed = true ∧
      rlLookup (checkRateLimit now id store).2 id =
        some (1, now + RATE_LIMIT_WINDOW_MS)) ∧
    (∀ ps : List Str, ps ≠ [] →
      (postBatch ps false true true none).status = 429 ∧
      (postBatch ps false true true none).questions = generateFallbackQuestions ps ∧
      (postBatch ps false true true none).questions.length = ps.length ∧
      ∀ pq ∈ (postBatch ps false true true none).questions, pq.question ≠ []) := by
  refine ⟨?_, ?_, ?_, ?_⟩
  · rw [runRL]
    have hlk : rlLookup ([] : RLStore) id = none := rfl
    unfold checkRateLimit
    rw [hlk]
    simp only
    have hset : rlSet ([] : RLStore) id (1, t0 + RATE_LIMIT_WINDOW_MS) =
        [(id, (1, t0 + RATE_LIMIT_WINDOW_MS))] := by
      unfold rlSet
      simp
    show List.count true
      (true :: runRL id rest (rlSet [] id (1, t0 + RATE_LIMIT_WINDOW_MS))) ≤
      MAX_REQUESTS_PER_WINDOW
    rw [hset, List.count_cons_self]
    have := runRL_count_le id (t0 + RATE_LIMIT_WINDOW_MS) rest 1 hrest
    simp only [MAX_REQUESTS_PER_WINDOW] at this ⊢
    omega
  · intro now store c r hlk hc hle
    unfold checkRateLimit
    rw [hlk]
    simp only
    rw [if_neg (by omega), if_pos hc]
    exact ⟨rfl, rfl⟩
  · intro now store c r hlk hlt
    unfold checkRateLimit
    rw [hlk]
    simp only
    rw [if_pos hlt]
    exact ⟨rfl, rlLookup_rlSet id _ store⟩
  · intro ps hps
    obtain ⟨hq, hl, hne, _⟩ :=
      C7_fallback_guarantee ps false true true none hps (Or.inr (Or.inr (Or.inl ⟨rfl, rfl, rfl⟩)))
    refine ⟨?_, hq, hl, hne⟩
    unfold postBatch
    rw [if_neg hps, if_pos (by simp)]

/-- Witness for C8: 51 calls at the same instant — 50 allowed, the 51st
denied — then allowed again strictly after the reset time. -/
theorem C8_rate_limit_quota_witness :
    (runRL "ip".toList (0 :: List.replicate 50 0) []).count true ≤
      MAX_REQUESTS_PER_WINDOW ∧
    (checkRateLimit 5 "ip".toList [("ip".toList, (50, RATE_LIMIT_WINDOW_MS))]).1.allowed
      = false ∧
    (checkRateLimit (RATE_LIMIT_WINDOW_MS + 1) "ip".toList
      [("ip".toList, (50, RATE_LIMIT_WINDOW_MS))]).1.allowed = true ∧
    (postBatch ["[Company Name]".toList] false true true none).status = 429 := by
  refine ⟨?_, ?_, ?_, ?_⟩
  · exact (C8_rate_limit_quota "ip".toList 0 (List.replicate 50 0) (by decide)).1
  · exact ((C8_rate_limit_quota "ip".toList 0 [] (by decide)).2.1 5 _ 50
      RATE_LIMIT_WINDOW_MS (by decide) (by decide) (by decide)).1
  · exact ((C8_rate_limit_quota "ip".toList 0 [] (by decide)).2.2.1
      (RATE_LIMIT_WINDOW_MS + 1) _ 50 RATE_LIMIT_WINDOW_MS (by decide) (by decide)).1
  · exact ((C8_rate_limit_quota "ip".toList 0 [] (by decide)).2.2.2
      ["[Company Name]".toList] (by decide)).1

/-! ### Escaping lemmas (C6) -/

theorem goodB_cons_other {c : Char} (h1 : c ≠ '<') (h2 : c ≠ '>') (h3 : c ≠ '&')
    (t : Str) : goodB (c :: t) = goodB t := by
  rw [goodB]
  rw [if_neg h1, if_neg h2, if_neg h3]

theorem goodB_escChar (c : Char) (t : Str) : goodB (escChar c ++ t) = goodB t := by
  by_cases h1 : c = '&'
  · subst h1
    show goodB ('&' :: ('a' :: 'm' :: 'p' :: ';' :: t)) = goodB t
    rw [goodB]
    rw [if_neg (by decide), if_neg (by decide), if_pos rfl]
    have hp : List.isPrefixOf "amp;".toList ('a' :: 'm' :: 'p' :: ';' :: t) = true := by
      rw [isPrefixOf_iff_pfx]
      exact ⟨t, rfl⟩
    rw [hp]
    simp only [Bool.true_or, Bool.true_and]
    rw [goodB_cons_other (by decide) (by decide) (by decide),
      goodB_cons_other (by decide) (by decide) (by decide),
      goodB_cons_other (by decide) (by decide) (by decide),
      goodB_cons_other (by decide) (by decide) (by decide)]
  · by_cases h2 : c = '<'
    · subst h2
      show goodB ('&' :: ('l' :: 't' :: ';' :: t)) = goodB t
      rw [goodB]
      rw [if_neg (by decide), if_neg (by decide), if_pos rfl]
      have hp : List.isPrefixOf "lt;".toList ('l' :: 't' :: ';' :: t) = true := by
        rw [isPrefixOf_iff_pfx]
        exact ⟨t, rfl⟩
      have hnp : List.isPrefixOf "amp;".toList ('l' :: 't' :: ';' :: t) = false := by
        rw [Bool.eq_false_iff]
        intro hc
        rw [isPrefixOf_iff_pfx] at hc
        obtain ⟨u, hu⟩ := hc
        simp at hu
      rw [hp, hnp]
      simp only [Bool.false_or, Bool.true_or, Bool.true_and]
      rw [goodB_cons_other (by decide) (by decide) (by decide),
        goodB_cons_other (by decide) (by decide) (by decide),
        goodB_cons_other (by decide) (by decide) (by decide)]
    · by_cases h3 : c = '>'
      · subst h3
        show goodB ('&' :: ('g' :: 't' :: ';' :: t)) = goodB t
        rw [goodB]
        rw [if_neg (by decide), if_neg (by decide), if_pos rfl]
        have hp : List.isPrefixOf "gt;".toList ('g' :: 't' :: ';' :: t) = true := by
          rw [isPrefixOf_iff_pfx]
          exact ⟨t, rfl⟩
        have hnp : List.isPrefixOf "amp;".toList ('g' :: 't' :: ';' :: t) = false := by
          rw [Bool.eq_false_iff]
          intro hc
          rw [isPrefixOf_iff_pfx] at hc
          obtain ⟨u, hu⟩ := hc
          simp at hu
        have hnp2 : List.isPrefixOf "lt;".toList ('g' :: 't' :: ';' :: t) = false := by
          rw [Bool.eq_false_iff]
          intro hc
          rw [isPrefixOf_iff_pfx] at hc
          obtain ⟨u, hu⟩ := hc
          simp at hu
        rw [hp, hnp, hnp2]
        simp only [Bool.false_or, Bool.true_or, Bool.true_and]
        rw [goodB_cons_other (by decide) (by decide) (by decide),
          goodB_cons_other (by decide) (by decide) (by decide),
          goodB_cons_other (by decide) (by decide) (by decide)]
      · have he : escChar c = [c] := by
          unfold escChar
          rw [if_neg h1, if_neg h2, if_neg h3]
        rw [he]
        exact goodB_cons_other h2 h3 h1 t

/-- C6 (amended).  The substitution engine's escaping makes the rewritten
paragraph text well-formed character data: no raw angle bracket survives and
every ampersand opens one of the produced entities — but quotes are not
escaped (see the counterexample). -/
theorem C6_escaping_amended (paragraphText k v : Str) :
    goodB (xmlEscape (replaceAll paragraphText k v)) = true := by
  generalize replaceAll paragraphText k v = s
  rw [xmlEscape_eq_flatMap]
  induction s with
  | nil => rfl
  | cons c rest ih =>
    rw [List.flatMap_cons, goodB_escChar]
    exact ih

/-- C6 counterexample: a double quote inside an answer value reaches the
rewritten run text unescaped, although the claim says quotes are escaped
before insertion (compare `xmlEscapeSpec`, which follows the claim). -/
theorem C6_quotes_not_escaped :
    paraText ((substitute [⟨0, [⟨1, "[A]".toList⟩]⟩]
        [("[A]".toList, "say \"hi\"".toList)]).getD 0 ⟨0, []⟩) = "say \"hi\"".toList ∧
    '"' ∈ paraText ((substitute [⟨0, [⟨1, "[A]".toList⟩]⟩]
        [("[A]".toList, "say \"hi\"".toList)]).getD 0 ⟨0, []⟩) ∧
    xmlEscapeSpec ("say \"hi\"".toList) ≠ "say \"hi\"".toList := by
  refine ⟨by decide, by decide, by decide⟩

/-! ### Token and prefix lemmas for the amended round-trip (C1) -/

theorem pfx_head {a b : Char} {k' s' : Str} (h : pfx (a :: k') (b :: s')) :
    a = b ∧ pfx k' s' := by
  obtain ⟨t, ht⟩ := h
  simp only [List.cons_append, List.cons.injEq] at ht
  exact ⟨ht.1.symm, ⟨t, ht.2⟩⟩

theorem pfx_nil_left {s : Str} : pfx [] s := ⟨s, rfl⟩

/-- A token body closed by `cl` that prefixes another such body (continued
arbitrarily) must equal it, when neither body contains `cl`. -/
theorem pref_close (cl : Char) :
    ∀ (m₁ m₂ t : Str), cl ∉ m₁ → cl ∉ m₂ → pfx (m₁ ++ [cl]) (m₂ ++ [cl] ++ t) → m₁ = m₂ := by
  intro m₁
  induction m₁ with
  | nil =>
    intro m₂ t _ h2 hp
    cases m₂ with
    | nil => rfl
    | cons b m₂' =>
      obtain ⟨u, hu⟩ := hp
      simp only [List.nil_append, List.cons_append, List.cons.injEq] at hu
      exact absurd (by simp [hu.1]) h2
  | cons a m₁' ih =>
    intro m₂ t h1 h2 hp
    cases m₂ with
    | nil =>
      obtain ⟨u, hu⟩ := hp
      simp only [List.cons_append, List.nil_append, List.cons.injEq] at hu
      exact absurd (by simp [hu.1]) h1
    | cons b m₂' =>
      have hh := pfx_head (by simpa using hp)
      rw [hh.1]
      rw [ih m₂' t (by simp at h1; exact h1.2) (by simp at h2; exact h2.2)
        (by simpa using hh.2)]

theorem tokForm_ne_nil {k : Str} (h : TokForm k) : k ≠ [] := by
  cases h <;> simp

theorem clean_not_close {m : Str} (h : Clean m) {c : Char} (hc : c ∈ delims) : c ∉ m :=
  fun hm => (h c hm) hc

/-- A token that starts another token's text (with any continuation) is that
token. -/
theorem tok_pfx {k j t : Str} (hk : TokForm k) (hj : TokForm j)
    (h : pfx k (j ++ t)) : k = j := by
  cases hk with
  | br hm₁ =>
    rename_i m₁
    cases hj with
    | br hm₂ =>
      rename_i m₂
      have hh := pfx_head (by simpa using h)
      congr 1
      exact congrArg (· ++ [']'])
        (pref_close ']' m₁ m₂ t (clean_not_close hm₁ (by decide))
          (clean_not_close hm₂ (by decide)) (by simpa [List.append_assoc] using hh.2)) |>.symm ▸ rfl
    | dollar _hm₂ =>
      have hh := pfx_head (by simpa using h)
      exact absurd hh.1 (by decide)
    | brace _hm₂ =>
      have hh := pfx_head (by simpa using h)
      exact absurd hh.1 (by decide)
  | dollar hm₁ =>
    rename_i m₁
    cases hj with
    | br _hm₂ =>
      have hh := pfx_head (by simpa using h)
      exact absurd hh.1 (by decide)
    | dollar hm₂ =>
      rename_i m₂
      have hh := pfx_head (by simpa using h)
      have hh2 := pfx_head (by simpa using hh.2)
      have := pref_close ']' m₁ m₂ t (clean_not_close hm₁ (by decide))
        (clean_not_close hm₂ (by decide)) (by simpa [List.append_assoc] using hh2.2)
      rw [this]
    | brace _hm₂ =>
      have hh := pfx_head (by simpa using h)
      exact absurd hh.1 (by decide)
  | brace hm₁ =>
    rename_i m₁
    cases hj with
    | br _hm₂ =>
      have hh := pfx_head (by simpa using h)
      exact absurd hh.1 (by decide)
    | dollar _hm₂ =>
      have hh := pfx_head (by simpa using h)
      exact absurd hh.1 (by decide)
    | brace hm₂ =>
      rename_i m₂
      have hh := pfx_head (by simpa using h)
      have := pref_close rbr m₁ m₂ t (clean_not_close hm₁ (by decide))
        (clean_not_close hm₂ (by decide)) (by simpa [List.append_assoc] using hh.2)
      rw [this]

theorem suffix_append_single {cl : Char} :
    ∀ (x' m y : Str), x' ++ y = m ++ [cl] → y ≠ [] →
      ∃ y', y = y' ++ [cl] ∧ x' ++ y' = m := by
  intro x'
  induction x' with
  | nil =>
    intro m y h _
    exact ⟨m, by simpa using h, rfl⟩
  | cons a x'' ih =>
    intro m y h hy
    cases m with
    | nil =>
      simp only [List.cons_append, List.nil_append, List.cons.injEq] at h
      obtain ⟨h1, h2⟩ := h
      exact absurd (List.append_eq_nil.mp h2).2 hy
    | cons b m' =>
      simp only [List.cons_append, List.cons.injEq] at h
      obtain ⟨y', hy1, hy2⟩ := ih m' y h.2 hy
      exact ⟨y', hy1, by simp [h.1, hy2]⟩

theorem tok_head_shape {k : Str} (h : TokForm k) :
    ∃ c k', k = c :: k' ∧ (c = '[' ∨ c = '$' ∨ c = lbr) := by
  cases h with
  | br hm => exact ⟨'[', _, rfl, Or.inl rfl⟩
  | dollar hm => exact ⟨'$', _, rfl, Or.inr (Or.inl rfl)⟩
  | brace hm => exact ⟨lbr, _, rfl, Or.inr (Or.inr rfl)⟩

theorem tok_head_mem_delims {c : Char} (h : c = '[' ∨ c = '$' ∨ c = lbr) : c ∈ delims := by
  rcases h with rfl | rfl | rfl <;> decide

/-- No token can start at a closing character or at a reserved-free
character. -/
theorem pfx_tok_head_false {k : Str} (hk : TokForm k) {c : Char} {s : Str}
    (hc : c ∉ delims ∨ c = ']' ∨ c = rbr) : ¬ pfx k (c :: s) := by
  intro hp
  obtain ⟨ck, k', hkeq, hck⟩ := tok_head_shape hk
  subst hkeq
  have hhead := (pfx_head hp).1
  rcases hc with hclean | rfl | rfl
  · exact hclean (hhead ▸ tok_head_mem_delims hck)
  · rcases hck with rfl | rfl | rfl <;> exact absurd hhead (by decide)
  · rcases hck with rfl | rfl | rfl <;> exact absurd hhead (by decide)

theorem not_delim_no_reserved {c : Char} (h : c ∉ delims) :
    c ≠ '&' ∧ c ≠ '<' ∧ c ≠ '>' := by
  refine ⟨?_, ?_, ?_⟩ <;> intro he <;> subst he <;> exact h (by decide)

/-- A token distinct from `j` (and not `j` minus its dollar sigil) never
starts strictly inside `j`, however the text continues. -/
theorem tok_no_inner_pfx {k j t : Str} (hk : TokForm k) (hj : TokForm j)
    (hne : k ≠ j) (hnd : j ≠ '$' :: k) :
    ∀ x y, j = x ++ y → y ≠ [] → ¬ pfx k (y ++ t) := by
  intro x y hxy hy hp
  cases hj with
  | br hm =>
    rename_i m
    cases x with
    | nil =>
      simp only [List.nil_append] at hxy
      subst hxy
      exact hne (tok_pfx hk (TokForm.br hm) hp)
    | cons a x' =>
      simp only [List.cons_append, List.cons.injEq] at hxy
      obtain ⟨y', hy1, hy2⟩ := suffix_append_single x' m y hxy.2.symm hy
      cases y' with
      | nil =>
        subst hy1
        exact pfx_tok_head_false hk (Or.inr (Or.inl rfl)) (by simpa using hp)
      | cons c y'' =>
        have hcm : c ∈ m := by rw [← hy2]; simp
        subst hy1
        exact pfx_tok_head_false hk (Or.inl (fun hd => hm c hcm hd)) (by simpa using hp)
  | dollar hm =>
    rename_i m
    cases x with
    | nil =>
      simp only [List.nil_append] at hxy
      subst hxy
      exact hne (tok_pfx hk (TokForm.dollar hm) hp)
    | cons a x' =>
      simp only [List.cons_append, List.cons.injEq] at hxy
      obtain ⟨ha, hxy'⟩ := hxy
      cases x' with
      | nil =>
        simp only [List.nil_append] at hxy'
        rw [← hxy'] at hp
        have hkj := tok_pfx hk (TokForm.br hm) (by simpa using hp)
        exact hnd (by rw [hkj])
      | cons b x'' =>
        simp only [List.cons_append, List.cons.injEq] at hxy'
        obtain ⟨y', hy1, hy2⟩ := suffix_append_single x'' m y hxy'.2.symm hy
        cases y' with
        | nil =>
          subst hy1
          exact pfx_tok_head_false hk (Or.inr (Or.inl rfl)) (by simpa using hp)
        | cons c y'' =>
          have hcm : c ∈ m := by rw [← hy2]; simp
          subst hy1
          exact pfx_tok_head_false hk (Or.inl (fun hd => hm c hcm hd)) (by simpa using hp)
  | brace hm =>
    rename_i m
    cases x with
    | nil =>
      simp only [List.nil_append] at hxy
      subst hxy
      exact hne (tok_pfx hk (TokForm.brace hm) hp)
    | cons a x' =>
      simp only [List.cons_append, List.cons.injEq] at hxy
      obtain ⟨y', hy1, hy2⟩ := suffix_append_single x' m y hxy.2.symm hy
      cases y' with
      | nil =>
        subst hy1
        exact pfx_tok_head_false hk (Or.inr (Or.inr rfl)) (by simpa using hp)
      | cons c y'' =>
        have hcm : c ∈ m := by rw [← hy2]; simp
        subst hy1
        exact pfx_tok_head_false hk (Or.inl (fun hd => hm c hcm hd)) (by simpa using hp)

theorem ra_lit {k v t L : Str} (hk : TokForm k) (hL : Clean L) :
    replaceAll (L ++ t) k v = L ++ replaceAll t k v := by
  apply replaceAll_append_left (tokForm_ne_nil hk)
  intro x y hxy hy hp
  obtain ⟨c, y', rfl⟩ := List.exists_cons_of_ne_nil hy
  have hcm : c ∈ L := by rw [hxy]; simp
  exact pfx_tok_head_false hk (Or.inl (fun hd => hL c hcm hd)) (by simpa using hp)

theorem ra_tok_eq {k v t : Str} (hk : TokForm k) :
    replaceAll (k ++ t) k v = v ++ replaceAll t k v :=
  replaceAll_match (tokForm_ne_nil hk)

theorem ra_tok_ne {k v t j : Str} (hk : TokForm k) (hj : TokForm j)
    (hne : k ≠ j) (hnd : j ≠ '$' :: k) :
    replaceAll (j ++ t) k v = j ++ replaceAll t k v := by
  apply replaceAll_append_left (tokForm_ne_nil hk)
  exact fun x y hxy hy => tok_no_inner_pfx hk hj hne hnd x y hxy hy

theorem segsText_cons (sg : Seg) (rest : List Seg) :
    segsText (sg :: rest) = segStr sg ++ segsText rest := by
  unfold segsText
  simp

/-- One replacement pass over a well-formed segment decomposition replaces
exactly the tokens equal to the key. -/
theorem ra_segs {ks : List Str} (htok : ∀ k ∈ ks, TokForm k)
    (hnd : ∀ k ∈ ks, ∀ j ∈ ks, j ≠ '$' :: k) {k v : Str} (hkin : k ∈ ks) :
    ∀ segs : List Seg, (∀ sg ∈ segs, SegOK ks sg) →
      replaceAll (segsText segs) k v = segsText (segs.map (replaceTokSeg k v)) := by
  intro segs
  induction segs with
  | nil => simp [segsText, replaceAll_nil]
  | cons sg rest ih =>
    intro hok
    rw [segsText_cons, List.map_cons, segsText_cons]
    cases sg with
    | lit L =>
      have hL : Clean L := hok (.lit L) (by simp)
      rw [show segStr (Seg.lit L) = L from rfl,
        show replaceTokSeg k v (Seg.lit L) = Seg.lit L from rfl,
        show segStr (Seg.lit L) = L from rfl,
        ra_lit (htok k hkin) hL, ih (fun s hs => hok s (by simp [hs]))]
    | tok j =>
      have hjks : j ∈ ks := hok (.tok j) (by simp)
      rw [show segStr (Seg.tok j) = j from rfl]
      by_cases hje : j = k
      · subst hje
        rw [show replaceTokSeg j v (Seg.tok j) = Seg.lit v by simp [replaceTokSeg],
          show segStr (Seg.lit v) = v from rfl,
          ra_tok_eq (htok j hjks), ih (fun s hs => hok s (by simp [hs]))]
      · rw [show replaceTokSeg k v (Seg.tok j) = Seg.tok j by simp [replaceTokSeg, hje],
          show segStr (Seg.tok j) = j from rfl,
          ra_tok_ne (htok k hkin) (htok j hjks) (fun h => hje h.symm) (hnd k hkin j hjks),
          ih (fun s hs => hok s (by simp [hs]))]

theorem segOK_map {ks : List Str} {k v : Str} (hv : Clean v) {segs : List Seg}
    (hok : ∀ sg ∈ segs, SegOK ks sg) :
    ∀ sg ∈ segs.map (replaceTokSeg k v), SegOK ks sg := by
  intro sg hsg
  obtain ⟨sg₀, hsg₀, rfl⟩ := List.mem_map.mp hsg
  cases sg₀ with
  | lit L => exact hok _ hsg₀
  | tok j =>
    by_cases hje : j = k
    · simpa [replaceTokSeg, hje, SegOK] using hv
    · simpa [replaceTokSeg, hje, SegOK] using hok _ hsg₀

theorem tokForm_no_reserved {k : Str} (h : TokForm k) :
    ∀ c ∈ k, c ≠ '&' ∧ c ≠ '<' ∧ c ≠ '>' := by
  cases h with
  | br hm =>
    intro c hc
    simp only [List.mem_cons, List.mem_append, List.mem_singleton,
      List.not_mem_nil, or_false] at hc
    rcases hc with rfl | hc | rfl
    · decide
    · exact not_delim_no_reserved (fun hd => hm c hc hd)
    · decide
  | dollar hm =>
    intro c hc
    simp only [List.mem_cons, List.mem_append, List.mem_singleton,
      List.not_mem_nil, or_false] at hc
    rcases hc with rfl | rfl | hc | rfl
    · decide
    · decide
    · exact not_delim_no_reserved (fun hd => hm c hc hd)
    · decide
  | brace hm =>
    intro c hc
    simp only [List.mem_cons, List.mem_append, List.mem_singleton,
      List.not_mem_nil, or_false] at hc
    rcases hc with rfl | hc | rfl
    · decide
    · exact not_delim_no_reserved (fun hd => hm c hc hd)
    · decide

theorem segsOK_no_reserved {ks : List Str} (htok : ∀ k ∈ ks, TokForm k) :
    ∀ segs : List Seg, (∀ sg ∈ segs, SegOK ks sg) →
      ∀ c ∈ segsText segs, c ≠ '&' ∧ c ≠ '<' ∧ c ≠ '>' := by
  intro segs
  induction segs with
  | nil =>
    intro _ c hc
    simp [segsText] at hc
  | cons sg rest ih =>
    intro hok c hc
    rw [segsText_cons] at hc
    rcases List.mem_append.mp hc with h1 | h2
    · cases sg with
      | lit L =>
        have hL : Clean L := hok (.lit L) (by simp)
        exact not_delim_no_reserved (fun hd => hL c h1 hd)
      | tok j => exact tokForm_no_reserved (htok j (hok (.tok j) (by simp))) c h1
    · exact ih (fun s hs => hok s (by simp [hs])) c h2

theorem tok_mem_occurs {k : Str} :
    ∀ {segs : List Seg}, Seg.tok k ∈ segs → occurs k (segsText segs) := by
  intro segs
  induction segs with
  | nil => intro h; simp at h
  | cons sg rest ih =>
    intro h
    rw [segsText_cons]
    rcases List.mem_cons.mp h with rfl | hmem
    · exact ⟨[], segsText rest, by simp [segStr]⟩
    · obtain ⟨a, b, hab⟩ := ih hmem
      exact ⟨segStr sg ++ a, b, by simp [hab]⟩

theorem segsText_map_nil {ks : List Str} (htok : ∀ k ∈ ks, TokForm k) {k v : Str} :
    ∀ segs : List Seg, (∀ sg ∈ segs, SegOK ks sg) → segsText segs = [] →
      segsText (segs.map (replaceTokSeg k v)) = [] := by
  intro segs
  induction segs with
  | nil => intro _ _; rfl
  | cons sg rest ih =>
    intro hok hnil
    rw [segsText_cons] at hnil
    obtain ⟨h1, h2⟩ := List.append_eq_nil.mp hnil
    cases sg with
    | lit L =>
      rw [List.map_cons, segsText_cons,
        show replaceTokSeg k v (Seg.lit L) = Seg.lit L from rfl,
        show segStr (Seg.lit L) = L from rfl]
      have hL : L = [] := h1
      rw [hL, List.nil_append]
      exact ih (fun s hs => hok s (by simp [hs])) h2
    | tok j =>
      exact absurd h1 (tokForm_ne_nil (htok j (hok (.tok j) (by simp))))

/-- One placeholder pass over one paragraph, at the segment level. -/
theorem rewritePara_step {ks : List Str} (htok : ∀ k ∈ ks, TokForm k)
    (hnd : ∀ k ∈ ks, ∀ j ∈ ks, j ≠ '$' :: k) {k v : Str} (hkin : k ∈ ks) (hv : Clean v)
    {p : Para} {segs : List Seg} (hpt : paraText p = segsText segs)
    (hok : ∀ sg ∈ segs, SegOK ks sg) :
    paraText (rewritePara k v p) = segsText (segs.map (replaceTokSeg k v)) := by
  unfold rewritePara
  split
  · rename_i heq
    have hptnil : paraText p = [] := by
      unfold paraText
      rw [heq]
      rfl
    rw [hptnil]
    exact (segsText_map_nil htok segs hok (hptnil ▸ hpt.symm ▸ rfl)).symm
  · rename_i r rs heq
    by_cases hocc : occurs k (paraText p)
    · rw [if_pos hocc]
      have hsingle : paraText ⟨p.props, [⟨r.fmt, xmlEscape (replaceAll (paraText p) k v)⟩]⟩ =
          xmlEscape (replaceAll (paraText p) k v) := by
        unfold paraText
        simp
      rw [hsingle, hpt, ra_segs htok hnd hkin segs hok]
      exact xmlEscape_id (segsOK_no_reserved htok _ (segOK_map hv hok))
    · rw [if_neg hocc]
      rw [hpt]
      have hmapid : segs.map (replaceTokSeg k v) = segs := by
        have hcong : ∀ sg ∈ segs, replaceTokSeg k v sg = id sg := by
          intro sg hsg
          cases sg with
          | lit L => rfl
          | tok j =>
            by_cases hje : j = k
            · subst hje
              exact absurd (hpt ▸ tok_mem_occurs hsg) hocc
            · simp [replaceTokSeg, hje]
        rw [List.map_congr_left hcong, List.map_id]
      rw [hmapid]

theorem foldTok_cons (kv : Str × Str) (ans : List (Str × Str)) (segs : List Seg) :
    foldTokSegs (kv :: ans) segs = foldTokSegs ans (segs.map (replaceTokSeg kv.1 kv.2)) := rfl

/-- The whole answer fold over one paragraph, at the segment level. -/
theorem para_fold {ks : List Str} (htok : ∀ k ∈ ks, TokForm k)
    (hnd : ∀ k ∈ ks, ∀ j ∈ ks, j ≠ '$' :: k) :
    ∀ (ans : List (Str × Str)), (∀ kv ∈ ans, kv.1 ∈ ks ∧ Clean kv.2) →
      ∀ (p : Para) (segs : List Seg), paraText p = segsText segs →
        (∀ sg ∈ segs, SegOK ks sg) →
        paraText (ans.foldl (fun q kv => rewritePara kv.1 kv.2 q) p) =
          segsText (foldTokSegs ans segs) := by
  intro ans
  induction ans with
  | nil =>
    intro _ p segs hpt _
    exact hpt
  | cons kv rest ih =>
    intro hkv p segs hpt hok
    rw [List.foldl_cons, foldTok_cons]
    exact ih (fun x hx => hkv x (by simp [hx]))
      (rewritePara kv.1 kv.2 p) (segs.map (replaceTokSeg kv.1 kv.2))
      (rewritePara_step htok hnd (hkv kv (by simp)).1 (hkv kv (by simp)).2 hpt hok)
      (segOK_map (hkv kv (by simp)).2 hok)

theorem segOK_foldTok {ks : List Str} :
    ∀ (ans : List (Str × Str)), (∀ kv ∈ ans, Clean kv.2) →
      ∀ {segs : List Seg}, (∀ sg ∈ segs, SegOK ks sg) →
      ∀ sg ∈ foldTokSegs ans segs, SegOK ks sg := by
  intro ans
  induction ans with
  | nil => intro _ segs hok sg hsg; exact hok sg hsg
  | cons kv rest ih =>
    intro hv segs hok sg hsg
    rw [foldTok_cons] at hsg
    exact ih (fun x hx => hv x (by simp [hx]))
      (segOK_map (hv kv (by simp)) hok) sg hsg

theorem foldTok_all_lit :
    ∀ (ans : List (Str × Str)) (segs : List Seg),
      (∀ j, Seg.tok j ∈ segs → j ∈ keysOf ans) →
      ∀ sg ∈ foldTokSegs ans segs, ∃ l, sg = Seg.lit l := by
  intro ans
  induction ans with
  | nil =>
    intro segs h sg hsg
    cases sg with
    | lit l => exact ⟨l, rfl⟩
    | tok j => exact absurd (h j hsg) (by simp [keysOf])
  | cons kv rest ih =>
    intro segs h sg hsg
    rw [foldTok_cons] at hsg
    apply ih (segs.map (replaceTokSeg kv.1 kv.2)) ?_ sg hsg
    intro j hj
    obtain ⟨sg₀, hsg₀, heq⟩ := List.mem_map.mp hj
    cases sg₀ with
    | lit l => simp [replaceTokSeg] at heq
    | tok j₀ =>
      by_cases hj₀ : j₀ = kv.1
      · simp [replaceTokSeg, hj₀] at heq
      · simp only [replaceTokSeg, if_neg hj₀, Seg.tok.injEq] at heq
        subst heq
        rcases List.mem_cons.mp (h j₀ hsg₀) with hh | hh
        · exact absurd hh hj₀
        · exact hh

theorem foldTok_lit_mem :
    ∀ (ans : List (Str × Str)) {segs : List Seg} {l : Str},
      Seg.lit l ∈ segs → Seg.lit l ∈ foldTokSegs ans segs := by
  intro ans
  induction ans with
  | nil => intro segs l h; exact h
  | cons kv rest ih =>
    intro segs l h
    rw [foldTok_cons]
    exact ih (List.mem_map.mpr ⟨Seg.lit l, h, rfl⟩)

theorem foldTok_value :
    ∀ (ans : List (Str × Str)) (segs : List Seg) (k v : Str),
      (k, v) ∈ ans → (keysOf ans).Nodup → Seg.tok k ∈ segs →
      Seg.lit v ∈ foldTokSegs ans segs := by
  intro ans
  induction ans with
  | nil => intro segs k v h _ _; simp at h
  | cons kv rest ih =>
    intro segs k v hmem hnd htk
    rw [foldTok_cons]
    rcases List.mem_cons.mp hmem with heq | hmem'
    · apply foldTok_lit_mem
      refine List.mem_map.mpr ⟨Seg.tok k, htk, ?_⟩
      rw [← heq]
      simp [replaceTokSeg]
    · have hndr : (keysOf rest).Nodup := by
        unfold keysOf at hnd ⊢
        rw [List.map_cons] at hnd
        exact (List.nodup_cons.mp hnd).2
      have hkne : k ≠ kv.1 := by
        intro hkeq
        have hkin : k ∈ keysOf rest := List.mem_map.mpr ⟨(k, v), hmem', rfl⟩
        unfold keysOf at hnd
        rw [List.map_cons] at hnd
        exact (List.nodup_cons.mp hnd).1 (hkeq ▸ hkin)
      exact ih _ k v hmem' hndr
        (List.mem_map.mpr ⟨Seg.tok k, htk, by simp [replaceTokSeg, hkne]⟩)

theorem segsText_clean {ks : List Str} :
    ∀ segs : List Seg, (∀ sg ∈ segs, ∃ l, sg = Seg.lit l) →
      (∀ sg ∈ segs, SegOK ks sg) → Clean (segsText segs) := by
  intro segs
  induction segs with
  | nil =>
    intro _ _ c hc
    simp [segsText] at hc
  | cons sg rest ih =>
    intro hall hok c hc
    rw [segsText_cons] at hc
    rcases List.mem_append.mp hc with h1 | h2
    · obtain ⟨l, rfl⟩ := hall sg (by simp)
      exact (hok (.lit l) (by simp)) c h1
    · exact ih (fun s hs => hall s (by simp [hs])) (fun s hs => hok s (by simp [hs])) c h2

theorem clean_no_tok_occurs {k s : Str} (hk : TokForm k) (hs : Clean s) : ¬ occurs k s := by
  intro hocc
  obtain ⟨c, k0, hke, hcd⟩ := tok_head_shape hk
  exact hs c (occurs_head_mem hke hocc) (tok_head_mem_delims hcd)

theorem lit_mem_occurs {v : Str} :
    ∀ {segs : List Seg}, Seg.lit v ∈ segs → occurs v (segsText segs) := by
  intro segs
  induction segs with
  | nil => intro h; simp at h
  | cons sg rest ih =>
    intro h
    rw [segsText_cons]
    rcases List.mem_cons.mp h with rfl | hmem
    · exact ⟨[], segsText rest, by simp [segStr]⟩
    · obtain ⟨a, b, hab⟩ := ih hmem
      exact ⟨segStr sg ++ a, b, by simp [hab]⟩

theorem occurs_of_infix {v t s a b : Str} (h : occurs v t) (hs : s = a ++ t ++ b) :
    occurs v s := by
  obtain ⟨x, y, hxy⟩ := h
  exact ⟨a ++ x, y ++ b, by rw [hs, hxy]; simp⟩

theorem flattenDoc_clean :
    ∀ d : Doc, (∀ p ∈ d, Clean (paraText p)) → Clean (flattenDoc d) := by
  intro d
  induction d with
  | nil =>
    intro _ c hc
    simp [flattenDoc] at hc
  | cons p rest ih =>
    intro h c hc
    cases rest with
    | nil =>
      rw [show flattenDoc [p] = paraText p from rfl] at hc
      exact h p (by simp) c hc
    | cons p2 rest2 =>
      rw [show flattenDoc (p :: p2 :: rest2) =
        paraText p ++ '\n' :: '\n' :: flattenDoc (p2 :: rest2) from rfl] at hc
      rcases List.mem_append.mp hc with h1 | h2
      · exact h p (by simp) c h1
      · rcases List.mem_cons.mp h2 with rfl | h3
        · decide
        · rcases List.mem_cons.mp h3 with rfl | h4
          · decide
          · exact ih (fun x hx => h x (by simp [hx])) c h4

theorem flattenDoc_mem_infix :
    ∀ d : Doc, ∀ p ∈ d, ∃ a b, flattenDoc d = a ++ paraText p ++ b := by
  intro d
  induction d with
  | nil => intro p hp; simp at hp
  | cons p0 rest ih =>
    intro p hp
    cases rest with
    | nil =>
      rcases List.mem_cons.mp hp with rfl | h
      · exact ⟨[], [], by rw [show flattenDoc [p] = paraText p from rfl]; simp⟩
      · simp at h
    | cons p2 rest2 =>
      rcases List.mem_cons.mp hp with rfl | h
      · exact ⟨[], '\n' :: '\n' :: flattenDoc (p2 :: rest2),
          by rw [show flattenDoc (p :: p2 :: rest2) =
            paraText p ++ '\n' :: '\n' :: flattenDoc (p2 :: rest2) from rfl]; simp⟩
      · obtain ⟨a, b, hab⟩ := ih p h
        exact ⟨paraText p0 ++ '\n' :: '\n' :: a, b,
          by rw [show flattenDoc (p0 :: p2 :: rest2) =
            paraText p0 ++ '\n' :: '\n' :: flattenDoc (p2 :: rest2) from rfl, hab]; simp⟩

/-- C1.  Round-trip completeness of substitution, amended.  The claim as
stated is false (see the counterexample below: an answer value may itself
contain a placeholder string, which the engine then leaves in the output).
Amended statement: for a document whose extracted placeholder list `ks` is
non-empty and consists of well-formed tokens (bracket, dollar-bracket or
brace form with reserved-character-free interior, no key being a `$`-prefix
of another), whose paragraph texts decompose into clean literal stretches
and exact occurrences of those tokens with every key occurring somewhere,
running the conversation to completion with inputs that trim to non-empty,
non-skip, delimiter-free text yields an answer map of size `ks.length`, and
the substituted document, flattened, contains no occurrence of any original
placeholder and contains every stored answer value. -/
theorem C1_round_trip_amended
    (doc : Doc) (inputs : List Str) (q : Str → Str) (segsOf : List (List Seg))
    (ks : List Str) (ans : List (Str × Str))
    (hks : ks = extractPlaceholders (flattenDoc doc))
    (hans : ans = (runChat q (initChat ks) inputs).answers)
    (hN : ks ≠ [])
    (hlen : inputs.length = ks.length)
    (hinp : ∀ inp ∈ inputs,
      trim inp ≠ [] ∧ toLowerStr (trim inp) ≠ skipStr ∧ Clean (trim inp))
    (htok : ∀ k ∈ ks, TokForm k)
    (hnd2 : ∀ k ∈ ks, ∀ j ∈ ks, j ≠ '$' :: k)
    (hzlen : doc.length = segsOf.length)
    (hpair : ∀ pr ∈ doc.zip segsOf,
      paraText pr.1 = segsText pr.2 ∧ ∀ sg ∈ pr.2, SegOK ks sg)
    (hocc : ∀ k ∈ ks, ∃ pr ∈ doc.zip segsOf, Seg.tok k ∈ pr.2) :
    ans.length = ks.length ∧
    (∀ k ∈ ks, ¬ occurs k (flattenDoc (substitute doc ans))) ∧
    (∀ kv ∈ ans, occurs kv.2 (flattenDoc (substitute doc ans))) := by
  have hndk : ks.Nodup := hks ▸ extract_nodup _
  have haux := runChat_aux ks hndk q inputs 0 (initChat ks) rfl rfl
    (by omega) (fun inp hi => (hinp inp hi).1)
    (by intro k hk; simp [initChat, keysOf] at hk)
  have hansEq : ans = answersOf ks inputs := by
    rw [hans]
    have h1 := haux.1
    simpa [initChat] using h1
  have hansMap : ans = (ks.zip inputs).map (fun kv => (kv.1, trim kv.2)) := by
    rw [hansEq, answersOf_no_skip ks inputs (fun inp hi => (hinp inp hi).2.1)]
  have hkeys : keysOf ans = ks := by
    rw [hansMap]
    unfold keysOf
    rw [List.map_map]
    rw [show (Prod.fst ∘ fun kv : Str × Str => (kv.1, trim kv.2)) = Prod.fst from rfl]
    exact List.map_fst_zip ks inputs (le_of_eq hlen.symm)
  have hmem : ∀ kv ∈ ans, kv.1 ∈ ks ∧ Clean kv.2 := by
    intro kv hkv
    rw [hansMap] at hkv
    obtain ⟨⟨k, inp⟩, hz, rfl⟩ := List.mem_map.mp hkv
    have hzm := List.of_mem_zip hz
    exact ⟨hzm.1, (hinp inp hzm.2).2.2⟩
  have hsub := substitute_eq_map ans doc
  have hpara : ∀ p ∈ doc, ∃ segs, paraText p = segsText segs ∧
      ∀ sg ∈ segs, SegOK ks sg := by
    intro p hp
    obtain ⟨i, hi, hpe⟩ := List.getElem_of_mem hp
    have hiz : i < (doc.zip segsOf).length := by
      rw [List.length_zip]
      omega
    have hzm : (doc[i], segsOf[i]) ∈ doc.zip segsOf := by
      have hgm := List.getElem_mem hiz
      rw [List.getElem_zip] at hgm
      exact hgm
    have hpp := hpair _ hzm
    exact ⟨segsOf[i], by rw [← hpe]; exact hpp.1, hpp.2⟩
  have hclean : ∀ p2 ∈ substitute doc ans, Clean (paraText p2) := by
    rw [hsub]
    intro p2 hp2
    obtain ⟨p, hp, rfl⟩ := List.mem_map.mp hp2
    obtain ⟨segs, hpt, hok⟩ := hpara p hp
    have hfold := para_fold htok hnd2 ans hmem p segs hpt hok
    rw [hfold]
    apply segsText_clean
    · apply foldTok_all_lit ans segs
      intro j hj
      rw [hkeys]
      exact hok (Seg.tok j) hj
    · exact segOK_foldTok ans (fun kv hkv => (hmem kv hkv).2) hok
  have hcleanAll : Clean (flattenDoc (substitute doc ans)) :=
    flattenDoc_clean _ hclean
  refine ⟨?_, ?_, ?_⟩
  · rw [hansMap]
    simp [List.length_zip, hlen]
  · intro k hk
    exact clean_no_tok_occurs (htok k hk) hcleanAll
  · intro kv hkv
    have hk1 : kv.1 ∈ ks := (hmem kv hkv).1
    obtain ⟨pr, hpr, htk⟩ := hocc kv.1 hk1
    obtain ⟨p, segs⟩ := pr
    have hzm := List.of_mem_zip hpr
    have hpp := hpair (p, segs) hpr
    have hnodk : (keysOf ans).Nodup := hkeys ▸ hndk
    have hlit : Seg.lit kv.2 ∈ foldTokSegs ans segs :=
      foldTok_value ans segs kv.1 kv.2 (by simpa using hkv) hnodk htk
    have hocc2 : occurs kv.2 (segsText (foldTokSegs ans segs)) := lit_mem_occurs hlit
    have hfold := para_fold htok hnd2 ans hmem p segs hpp.1 hpp.2
    have hpmem : (ans.foldl (fun st kv => rewritePara kv.1 kv.2 st) p) ∈
        substitute doc ans := by
      rw [hsub]
      exact List.mem_map.mpr ⟨p, hzm.1, rfl⟩
    obtain ⟨a, b, hab⟩ := flattenDoc_mem_infix _ _ hpmem
    apply occurs_of_infix ?_ hab
    rw [hfold]
    exact hocc2

/-- C1 counterexample to the unamended claim: the document consisting of the
single paragraph text `[A]` has exactly one extracted placeholder; answering
it with the non-empty, non-skip input `x[A]` yields an answer map of size 1,
yet the flattened substituted text still contains the placeholder string
`[A]`, because the stored answer value itself contains it. -/
theorem C1_round_trip_counterexample :
    extractPlaceholders (flattenDoc [⟨0, [⟨1, "[A]".toList⟩]⟩]) = ["[A]".toList] ∧
    (runChat (fun _ => []) (initChat ["[A]".toList]) ["x[A]".toList]).answers =
      [("[A]".toList, "x[A]".toList)] ∧
    trim "x[A]".toList ≠ [] ∧
    toLowerStr (trim "x[A]".toList) ≠ skipStr ∧
    occurs ("[A]".toList)
      (flattenDoc (substitute [⟨0, [⟨1, "[A]".toList⟩]⟩]
        (runChat (fun _ => []) (initChat ["[A]".toList]) ["x[A]".toList]).answers)) := by
  decide

theorem C1_round_trip_amended_witness :
    ([(("[Date]".toList : Str), ("June 1".toList : Str))].length =
      (["[Date]".toList] : List Str).length) ∧
    (∀ k ∈ (["[Date]".toList] : List Str),
      ¬ occurs k (flattenDoc (substitute [⟨0, [⟨1, "On [Date].".toList⟩]⟩]
        [("[Date]".toList, "June 1".toList)]))) ∧
    (∀ kv ∈ [(("[Date]".toList : Str), ("June 1".toList : Str))],
      occurs kv.2 (flattenDoc (substitute [⟨0, [⟨1, "On [Date].".toList⟩]⟩]
        [("[Date]".toList, "June 1".toList)]))) :=
  C1_round_trip_amended
    [⟨0, [⟨1, "On [Date].".toList⟩]⟩]
    ["June 1".toList]
    (fun _ => [])
    [[Seg.lit "On ".toList, Seg.tok "[Date]".toList, Seg.lit ".".toList]]
    ["[Date]".toList]
    [("[Date]".toList, "June 1".toList)]
    (by decide)
    (by decide)
    (by decide)
    (by decide)
    (by decide)
    (by
      intro k hk
      rw [List.mem_singleton] at hk
      subst hk
      rw [show ("[Date]".toList : Str) = '[' :: ("Date".toList ++ [']']) from by decide]
      exact TokForm.br (by decide))
    (by decide)
    (by decide)
    (by decide)
    (by decide)

end Clausefill
